import Mathlib

/-!
Shallow embedding of the Multi-agent repository (memory store, message
queue, vector store, reflection loop and synthesis), together with theorems
checking the specification claims against the code.  Timestamps are
natural-number ticks, scores are rationals, Python dicts are association
lists in insertion order.
-/

namespace MultiAgent

/-- Python dict assignment `d[k] = v`: an existing key keeps its position,
a fresh key is appended at the end. -/
def dictSet {K V : Type} [DecidableEq K] (k : K) (v : V) :
    List (K × V) → List (K × V)
  | [] => [(k, v)]
  | (k₁, v₁) :: rest =>
      if k₁ = k then (k, v) :: rest else (k₁, v₁) :: dictSet k v rest

/-- Python dict lookup `d.get(k)`. -/
def dictGet {K V : Type} [DecidableEq K] (k : K) :
    List (K × V) → Option V
  | [] => none
  | (k₁, v₁) :: rest => if k₁ = k then some v₁ else dictGet k rest

/-- Python `del d[k]` (on a dict whose keys are unique this removes the one
entry with key `k`). -/
def dictDel {K V : Type} [DecidableEq K] (k : K) (d : List (K × V)) :
    List (K × V) :=
  d.filter (fun p => p.1 ≠ k)

/-- Python `list.remove(x)`: drop the first occurrence of `x`, keep the rest. -/
def listRemoveFirst {V : Type} [DecidableEq V] (v : V) : List V → List V
  | [] => []
  | x :: rest => if x = v then rest else x :: listRemoveFirst v rest

/-! ### Memory data model (`src/core/memory/memory_store.py`) -/

/-- The `MemoryImportance` enum (`LOW = 1 … CRITICAL = 4`). -/
inductive MemoryImportance
  | low
  | medium
  | high
  | critical
deriving DecidableEq

/-- Numeric `.value` of a `MemoryImportance` member. -/
def MemoryImportance.value : MemoryImportance → Nat
  | .low => 1
  | .medium => 2
  | .high => 3
  | .critical => 4

/-- Enum member `.name` of a `MemoryImportance` member, used as index key. -/
def MemoryImportance.name : MemoryImportance → String
  | .low => "LOW"
  | .medium => "MEDIUM"
  | .high => "HIGH"
  | .critical => "CRITICAL"

/-- The `MemoryType` enum. -/
inductive MemoryType
  | short_term
  | long_term
  | working
  | episodic
  | semantic
  | procedural
deriving DecidableEq

/-- String `.value` of a `MemoryType` member, used as index key. -/
def MemoryType.value : MemoryType → String
  | .short_term => "short_term"
  | .long_term => "long_term"
  | .working => "working"
  | .episodic => "episodic"
  | .semantic => "semantic"
  | .procedural => "procedural"

/-- The `Memory` pydantic model.  The `content` union is modelled as text
and `datetime` values as natural ticks; the `metadata` map is inert for the
store operations and modelled as string pairs. -/
structure Memory where
  id : String
  content : String
  memory_type : MemoryType
  importance : MemoryImportance
  owner_id : String
  tags : List String
  metadata : List (String × String)
  created_at : Nat
  last_accessed : Nat
  access_count : Nat
  expires_at : Option Nat
deriving DecidableEq

/-- Method `Memory.is_expired`: false without an `expires_at`, otherwise
whether the current time is strictly past it. -/
def Memory.is_expired (now : Nat) (m : Memory) : Bool :=
  match m.expires_at with
  | none => false
  | some t => now > t

/-- Method `Memory.access`: bump `last_accessed` and `access_count`. -/
def Memory.access (now : Nat) (m : Memory) : Memory :=
  { m with last_accessed := now, access_count := m.access_count + 1 }

/-! ### MemoryStore state and index maintenance -/

/-- The four secondary indices (`_indices`) of `MemoryStore`, each a dict
from key to a list of memory ids. -/
structure MemoryIndices where
  by_owner : List (String × List String)
  by_type : List (String × List String)
  by_tag : List (String × List String)
  by_importance : List (String × List String)
deriving DecidableEq

/-- Append `id` to the bucket of `key`, creating the bucket when absent
(the `if key not in index: index[key] = []` then `append` idiom). -/
def indexAdd (key id : String) (idx : List (String × List String)) :
    List (String × List String) :=
  dictSet key ((dictGet key idx).getD [] ++ [id]) idx

/-- Remove `id` from the bucket of `key` when both exist (the guarded
`index[key].remove(id)` idiom). -/
def indexRemove (key id : String) (idx : List (String × List String)) :
    List (String × List String) :=
  match dictGet key idx with
  | none => idx
  | some ids => dictSet key (listRemoveFirst id ids) idx

/-- Method `MemoryStore._update_indices`. -/
def updateIndices (m : Memory) (idx : MemoryIndices) : MemoryIndices :=
  { by_owner := indexAdd m.owner_id m.id idx.by_owner
    by_type := indexAdd m.memory_type.value m.id idx.by_type
    by_tag := m.tags.foldl (fun acc tag => indexAdd tag m.id acc) idx.by_tag
    by_importance := indexAdd m.importance.name m.id idx.by_importance }

/-- Method `MemoryStore._remove_from_indices`. -/
def removeFromIndices (m : Memory) (idx : MemoryIndices) : MemoryIndices :=
  { by_owner := indexRemove m.owner_id m.id idx.by_owner
    by_type := indexRemove m.memory_type.value m.id idx.by_type
    by_tag := m.tags.foldl (fun acc tag => indexRemove tag m.id acc) idx.by_tag
    by_importance := indexRemove m.importance.name m.id idx.by_importance }

/-- Method `MemoryStore._update_importance_index`: drop the id from the old
importance bucket, append it to the bucket of the new importance carried by
`m`. -/
def updateImportanceIndex (m : Memory) (old : MemoryImportance)
    (idx : MemoryIndices) : MemoryIndices :=
  { idx with
    by_importance :=
      indexAdd m.importance.name m.id
        (indexRemove old.name m.id idx.by_importance) }

/-- The `MemoryStore` state: the primary `memories` dict (keyed by the id
field of each entry, held in insertion order) plus the secondary indices. -/
structure MemoryStore where
  max_memories : Nat
  memories : List Memory
  indices : MemoryIndices
deriving DecidableEq

/-- A fresh `MemoryStore(max_memories)`. -/
def MemoryStore.init (maxMemories : Nat) : MemoryStore :=
  { max_memories := maxMemories
    memories := []
    indices := ⟨[], [], [], []⟩ }

/-- Store the memory under its id in the primary dict: replace in place when
the id exists, append otherwise (Python dict assignment keyed by `m.id`). -/
def memDictSet (m : Memory) (l : List Memory) : List Memory :=
  if l.any (fun x => x.id = m.id) then
    l.map (fun x => if x.id = m.id then m else x)
  else l ++ [m]

/-- Method `MemoryStore.delete_memory`: returns whether the id was present
and the updated store. -/
def MemoryStore.delete_memory (st : MemoryStore) (memoryId : String) :
    Bool × MemoryStore :=
  match st.memories.find? (fun m => m.id = memoryId) with
  | none => (false, st)
  | some m =>
      (true,
        { st with
            memories := st.memories.filter (fun x => x.id ≠ memoryId)
            indices := removeFromIndices m st.indices })

/-- Method `MemoryStore.cleanup_expired_memories`: collect the expired ids,
delete each, return how many. -/
def MemoryStore.cleanup_expired_memories (st : MemoryStore) (now : Nat) :
    Nat × MemoryStore :=
  let expiredIds := (st.memories.filter (fun m => m.is_expired now)).map Memory.id
  (expiredIds.length,
    expiredIds.foldl (fun s i => (s.delete_memory i).2) st)

/-- Sort key used by `_cleanup_memories`: the pair
`(m.importance.value, m.access_count)`. -/
def memKey (m : Memory) : Nat × Nat :=
  (m.importance.value, m.access_count)

/-- Lexicographic order on sort keys, as Python compares tuples. -/
def keyLe (p q : Nat × Nat) : Prop :=
  p.1 < q.1 ∨ (p.1 = q.1 ∧ p.2 ≤ q.2)

instance : DecidableRel keyLe := fun p q => by
  unfold keyLe; infer_instance

/-- Comparison of memories by sort key, the order used by the eviction
sort in `_cleanup_memories`. -/
def memLe (a b : Memory) : Prop := keyLe (memKey a) (memKey b)

instance : DecidableRel memLe := fun a b => by
  unfold memLe; infer_instance

instance : IsTotal Memory memLe :=
  ⟨fun a b => by unfold memLe keyLe; omega⟩

instance : IsTrans Memory memLe :=
  ⟨fun a b c hab hbc => by
    unfold memLe keyLe at *; omega⟩

/-- Method `MemoryStore._cleanup_memories`: first delete every expired
memory; if the store is still at or above capacity, sort all memories
ascending by `(importance.value, access_count)` (a stable sort, as the
Python `list.sort` is) and delete the first `int(n * 0.1)` of them. -/
def MemoryStore.cleanupMemories (st : MemoryStore) (now : Nat) : MemoryStore :=
  let st₁ := (st.cleanup_expired_memories now).2
  if st₁.memories.length ≥ st₁.max_memories then
    let sortedMems := List.insertionSort memLe st₁.memories
    let toRemove := st₁.memories.length / 10
    ((sortedMems.take toRemove).map Memory.id).foldl
      (fun s i => (s.delete_memory i).2) st₁
  else st₁

/-- Method `MemoryStore.store_memory`: run `_cleanup_memories` when already
at or above capacity, then insert the memory and update the indices. -/
def MemoryStore.store_memory (st : MemoryStore) (now : Nat) (m : Memory) :
    String × MemoryStore :=
  let st₁ := if st.memories.length ≥ st.max_memories then
    st.cleanupMemories now else st
  (m.id,
    { st₁ with
        memories := memDictSet m st₁.memories
        indices := updateIndices m st₁.indices })

/-- Method `MemoryStore.get_memory`: a present non-expired memory is
access-bumped and returned; a present expired memory is deleted and `none`
is returned; an absent id returns `none`. -/
def MemoryStore.get_memory (st : MemoryStore) (now : Nat) (memoryId : String) :
    Option Memory × MemoryStore :=
  match st.memories.find? (fun m => m.id = memoryId) with
  | none => (none, st)
  | some m =>
      if m.is_expired now then (none, (st.delete_memory memoryId).2)
      else
        let m₁ := m.access now
        (some m₁,
          { st with
              memories := st.memories.map (fun x => if x.id = memoryId then m₁ else x) })

/-- Method `MemoryStore.update_memory_importance`: look the id up in the
primary dict with no expiry check; when present overwrite the importance
and refresh the importance index, returning true. -/
def MemoryStore.update_memory_importance (st : MemoryStore)
    (memoryId : String) (importance : MemoryImportance) :
    Bool × MemoryStore :=
  match st.memories.find? (fun m => m.id = memoryId) with
  | none => (false, st)
  | some m =>
      let m₁ := { m with importance := importance }
      (true,
        { st with
            memories := st.memories.map (fun x => if x.id = memoryId then m₁ else x)
            indices := updateImportanceIndex m₁ m.importance st.indices })

/-- Well-formedness of a store state: the ids keying the primary dict are
pairwise distinct (automatic for a Python dict). -/
def MemoryStore.wf (st : MemoryStore) : Prop :=
  (st.memories.map Memory.id).Nodup

instance (st : MemoryStore) : Decidable st.wf := by
  unfold MemoryStore.wf; infer_instance

/-! ### Message data model and MessageQueue (`src/core/base/message.py`) -/

/-- The `MessageType` enum. -/
inductive MessageType
  | text
  | system
  | tool_call
  | tool_result
  | task
  | result
  | error
  | status
  | notification
deriving DecidableEq

/-- The `MessagePriority` enum (`LOW = 1 … URGENT = 4`). -/
inductive MessagePriority
  | low
  | normal
  | high
  | urgent
deriving DecidableEq

/-- Numeric `.value` of a `MessagePriority` member. -/
def MessagePriority.value : MessagePriority → Nat
  | .low => 1
  | .normal => 2
  | .high => 3
  | .urgent => 4

/-- The `Message` pydantic model; `content` is modelled as text and the
`metadata` map as string pairs.  The `priority` field records the logical
priority; the pydantic (v1) config `use_enum_values = True` makes the
runtime attribute of an explicitly passed priority the plain ordinal int
(v1 does not validate an un-passed default, which keeps the enum member). -/
structure Message where
  id : String
  type : MessageType
  content : String
  sender_id : String
  sender_name : String
  recipient_id : Option String
  recipient_name : Option String
  timestamp : Nat
  priority : MessagePriority
  metadata : List (String × String)
  parent_message_id : Option String
  thread_id : Option String
deriving DecidableEq

/-- Method `Message.get_text_content` on the text branch of the content
union. -/
def Message.get_text_content (m : Message) : String := m.content

/-- The `MessageQueue` state: capacity and the `_messages` list. -/
structure MessageQueue where
  max_size : Nat
  messages : List Message
deriving DecidableEq

/-- A fresh `MessageQueue(max_size)`. -/
def MessageQueue.initQ (maxSize : Nat) : MessageQueue :=
  { max_size := maxSize, messages := [] }

/-- Python attribute access `.value` evaluated on a plain int: because
`Message.Config` sets `use_enum_values = True`, the validated `priority`
attribute of an explicitly passed priority is the ordinal int, and an int
has no `value` attribute, so the access raises `AttributeError`.  (All
messages modelled here carry explicitly set priorities; an un-passed
pydantic-v1 default keeps the enum member and is not modelled.) -/
def intValueAttr (_n : Nat) : Except String Nat :=
  .error "AttributeError"

/-- The insertion loop of `MessageQueue.put` exactly as executed: each
iteration evaluates `message.priority.value` and `msg.priority.value` on the
int-valued attributes before comparing; reaching the end of the list without
inserting appends the message. -/
def putLoopChecked (m : Message) : List Message → Except String (List Message)
  | [] => .ok [m]
  | msg :: rest => do
      let v ← intValueAttr m.priority.value
      let w ← intValueAttr msg.priority.value
      if v > w then .ok (m :: msg :: rest)
      else do
        let tail ← putLoopChecked m rest
        .ok (msg :: tail)

/-- Method `MessageQueue.put` as executed: when the queue is full, pop the
element at index 0 of the priority-ordered list, then run the insertion
loop (which raises on its first comparison, see `intValueAttr`).  A zero
`max_size` queue would raise IndexError on the pop instead; the claims all
take `max_size ≥ 1`. -/
def MessageQueue.putChecked (q : MessageQueue) (m : Message) :
    Except String MessageQueue := do
  let base := if q.messages.length ≥ q.max_size then q.messages.drop 1
    else q.messages
  let msgs ← putLoopChecked m base
  pure { q with messages := msgs }

/-- Method `MessageQueue.get`: pop and return index 0, or report empty. -/
def MessageQueue.get (q : MessageQueue) : Option Message × MessageQueue :=
  match q.messages with
  | [] => (none, q)
  | msg :: rest => (some msg, { q with messages := rest })

/-- Method `MessageQueue.size`. -/
def MessageQueue.size (q : MessageQueue) : Nat := q.messages.length

/-- A sequence of `put` calls as executed on a fresh queue: each call runs
in order and the first raised `AttributeError` aborts the sequence. -/
def runPutsChecked (maxSize : Nat) (ms : List Message) :
    Except String MessageQueue :=
  ms.foldlM MessageQueue.putChecked (MessageQueue.initQ maxSize)

/-! ### Vector store (`src/core/memory/vector_store.py`, Faiss backend) -/

/-- The `VectorDocument` pydantic model; vector components are rationals. -/
structure VectorDocument where
  id : String
  content : String
  vector : List ℚ
  metadata : List (String × String)
  created_at : Nat
  tags : List String
deriving DecidableEq

/-- The `SearchResult` pydantic model. -/
structure SearchResult where
  document : VectorDocument
  score : ℚ
  rank : Nat
deriving DecidableEq

/-- The `FaissVectorStore` state: the document table, the two id-slot
mappings and the slot counter.  The backing Faiss index is the external
collaborator; only its vector count `ntotal` is tracked (adding a document
pushes one normalized vector, deletion never removes one), and the ranked
candidate list a `search` call gets back from it is passed in as input. -/
structure FaissVectorStore where
  dimension : Nat
  documents : List (String × VectorDocument)
  id_to_index : List (String × Nat)
  index_to_id : List (Nat × String)
  next_index : Nat
  ntotal : Nat
deriving DecidableEq

/-- A fresh `FaissVectorStore(dimension)` with a flat index. -/
def FaissVectorStore.init (dimension : Nat) : FaissVectorStore :=
  { dimension := dimension, documents := [], id_to_index := [],
    index_to_id := [], next_index := 0, ntotal := 0 }

/-- Method `FaissVectorStore.add_document`: push the (normalized) vector
into the backend index, record both slot mappings at `next_index`, bump the
counter, store the raw document. -/
def FaissVectorStore.add_document (st : FaissVectorStore)
    (doc : VectorDocument) : String × FaissVectorStore :=
  (doc.id,
    { st with
        ntotal := st.ntotal + 1
        id_to_index := dictSet doc.id st.next_index st.id_to_index
        index_to_id := dictSet st.next_index doc.id st.index_to_id
        next_index := st.next_index + 1
        documents := dictSet doc.id doc st.documents })

/-- Method `FaissVectorStore.delete_document`: absent ids report false; a
present id is removed from the document table and both slot mappings, while
the backend index keeps the vector (deletion there is only marked). -/
def FaissVectorStore.delete_document (st : FaissVectorStore)
    (docId : String) : Bool × FaissVectorStore :=
  if (dictGet docId st.documents).isSome then
    let st₁ := { st with documents := dictDel docId st.documents }
    match dictGet docId st.id_to_index with
    | none => (true, st₁)
    | some idx =>
        (true,
          { st₁ with
              id_to_index := dictDel docId st₁.id_to_index
              index_to_id := dictDel idx st₁.index_to_id })
  else (false, st)

/-- Method `FaissVectorStore.update_document`: absent ids report false; a
present id is deleted and the new document added. -/
def FaissVectorStore.update_document (st : FaissVectorStore)
    (docId : String) (doc : VectorDocument) : Bool × FaissVectorStore :=
  if (dictGet docId st.documents).isSome then
    (true, (((st.delete_document docId).2).add_document doc).2)
  else (false, st)

/-- Method `FaissVectorStore.get_document`. -/
def FaissVectorStore.get_document (st : FaissVectorStore)
    (docId : String) : Option VectorDocument :=
  dictGet docId st.documents

/-- Method `FaissVectorStore._match_metadata_filter`: every filter key must
be present with the exact value. -/
def matchMetadataFilter (metadata filterMd : List (String × String)) : Bool :=
  filterMd.all (fun p => dictGet p.1 metadata = some p.2)

/-- Whether the result-assembly loop of `search` keeps a ranked candidate:
the slot must not be the Faiss invalid marker `-1`, must map to a truthy id
still present in the document table, and the document must pass the
metadata filter (an empty filter dict is falsy in Python and disables
filtering). -/
def candPasses (st : FaissVectorStore)
    (filterMd : Option (List (String × String))) (cand : ℚ × Int) : Bool :=
  if cand.2 = -1 then false
  else
    match dictGet cand.2.toNat st.index_to_id with
    | none => false
    | some docId =>
        if docId = "" then false
        else
          match dictGet docId st.documents with
          | none => false
          | some doc =>
              match filterMd with
              | none => true
              | some f => if f = [] then true else matchMetadataFilter doc.metadata f

/-- The result-assembly loop of `FaissVectorStore.search` (lines 196-214):
enumerate the ranked candidates, skip invalid, unmapped, deleted or
filtered ones, and attach the enumeration position as `rank`. -/
def searchAssemble (st : FaissVectorStore)
    (filterMd : Option (List (String × String))) :
    Nat → List (ℚ × Int) → List SearchResult
  | _, [] => []
  | rank, cand :: rest =>
      let restResults := searchAssemble st filterMd (rank + 1) rest
      if candPasses st filterMd cand then
        match dictGet cand.2.toNat st.index_to_id with
        | none => restResults
        | some docId =>
            match dictGet docId st.documents with
            | none => restResults
            | some doc =>
                { document := doc, score := cand.1, rank := rank } :: restResults
      else restResults

/-- Method `FaissVectorStore.search`: an empty backend index returns no
results; otherwise the backend returns score-descending candidates
`(score, slot)` for the normalized query and the assembly loop filters and
ranks them. -/
def FaissVectorStore.search (st : FaissVectorStore)
    (cands : List (ℚ × Int))
    (filterMd : Option (List (String × String))) : List SearchResult :=
  if st.ntotal = 0 then [] else searchAssemble st filterMd 0 cands

/-- One mutating vector-store call. -/
inductive VsOp
  | add (doc : VectorDocument)
  | del (docId : String)
  | upd (docId : String) (doc : VectorDocument)
deriving DecidableEq

/-- Apply one mutating call. -/
def applyVsOp (st : FaissVectorStore) : VsOp → FaissVectorStore
  | .add doc => (st.add_document doc).2
  | .del docId => (st.delete_document docId).2
  | .upd docId doc => (st.update_document docId doc).2

/-- A call is id-fresh in a state when it does not re-add an id that is
already present (an update may reuse the id it replaces). -/
def VsOp.freshIn (st : FaissVectorStore) : VsOp → Prop
  | .add doc => dictGet doc.id st.documents = none
  | .del _ => True
  | .upd docId doc => doc.id = docId ∨ dictGet doc.id st.documents = none

instance (st : FaissVectorStore) (op : VsOp) : Decidable (op.freshIn st) := by
  cases op <;> (unfold VsOp.freshIn; infer_instance)

/-- Every call of the sequence is id-fresh in the state it runs in. -/
def vsOpsFresh : FaissVectorStore → List VsOp → Prop
  | _, [] => True
  | st, op :: rest => op.freshIn st ∧ vsOpsFresh (applyVsOp st op) rest

instance : ∀ (st : FaissVectorStore) (ops : List VsOp),
    Decidable (vsOpsFresh st ops)
  | _, [] => .isTrue trivial
  | st, op :: rest =>
      have : Decidable (vsOpsFresh (applyVsOp st op) rest) :=
        instDecidableVsOpsFresh (applyVsOp st op) rest
      by unfold vsOpsFresh; exact instDecidableAnd

/-- Run a sequence of mutating calls on a fresh store. -/
def runVsOps (dimension : Nat) (ops : List VsOp) : FaissVectorStore :=
  ops.foldl applyVsOp (FaissVectorStore.init dimension)

/-- Internal slot-mapping invariant of a Faiss store state: unique ids,
unique slots, slots below the counter, and the two mappings are mutually
inverse. -/
def FaissVectorStore.slotInv (st : FaissVectorStore) : Prop :=
  (st.id_to_index.map Prod.fst).Nodup ∧
  (st.index_to_id.map Prod.fst).Nodup ∧
  (∀ p ∈ st.id_to_index, p.2 < st.next_index) ∧
  (∀ p ∈ st.index_to_id, p.1 < st.next_index) ∧
  (∀ i n, (i, n) ∈ st.id_to_index ↔ (n, i) ∈ st.index_to_id)

/-! ### Reflection agent (`src/patterns/reflection/reflection_agent.py`) -/

/-- The opening-brace and closing-brace characters (code points 123 and
125), spelled via their code points. -/
def lbrace : Char := Char.ofNat 123

def rbrace : Char := Char.ofNat 125

/-- Scanner for the leftmost fragment consisting of an opening brace, a run
of non-brace characters and a closing brace, as the regex search in
`_evaluate_response` finds it.  A candidate opening brace whose next brace
character is another opening brace restarts the scan there.  The fuel
argument (taken one above the text length) only makes the recursion
structural. -/
def scanBraceAux : Nat → List Char → Option (List Char)
  | 0, _ => none
  | _ + 1, [] => none
  | fuel + 1, c :: rest =>
      if c = lbrace then
        let body := rest.takeWhile (fun d => !(d == lbrace || d == rbrace))
        match rest.drop body.length with
        | d :: after =>
            if d = rbrace then some (lbrace :: (body ++ [rbrace]))
            else scanBraceAux fuel (d :: after)
        | [] => none
      else scanBraceAux fuel rest

/-- The regex extraction step of `_evaluate_response`: the leftmost
brace-delimited fragment of the evaluator output, if any. -/
def extractJson (s : String) : Option String :=
  (scanBraceAux (s.toList.length + 1) s.toList).map fun cs => String.mk cs

/-- The JSON object `_evaluate_response` may parse from the evaluator
output: five optional dimension scores, an optional aggregate and the
improvement suggestions (missing key modelled as the empty list the code
defaults to). -/
structure EvalJson where
  relevance : Option ℚ
  accuracy : Option ℚ
  completeness : Option ℚ
  clarity : Option ℚ
  usefulness : Option ℚ
  overall_score : Option ℚ
  improvement_suggestions : List String
deriving DecidableEq

/-- The evaluation dict `_evaluate_response` hands back to the loop. -/
structure EvalOut where
  relevance : Option ℚ
  accuracy : Option ℚ
  completeness : Option ℚ
  clarity : Option ℚ
  usefulness : Option ℚ
  overall_score : ℚ
  improvement_suggestions : List String
deriving DecidableEq

/-- Outcome of the evaluator-agent invoke: the collaborator either raises
or returns output text. -/
inductive EvalOutcome
  | failure (err : String)
  | output (text : String)
deriving DecidableEq

/-- The fallback evaluation dict built when no brace-delimited fragment is
found in the evaluator output: every score 0.7 and a cannot-parse note. -/
def defaultEval07 : EvalOut :=
  { relevance := some (7/10), accuracy := some (7/10),
    completeness := some (7/10), clarity := some (7/10),
    usefulness := some (7/10), overall_score := 7/10,
    improvement_suggestions := ["无法解析评估结果。"] }

/-- The degraded evaluation dict built by the except branch of
`_evaluate_response`: overall 0.5 and a failure note carrying the error
text. -/
def failureEval (err : String) : EvalOut :=
  { relevance := none, accuracy := none, completeness := none,
    clarity := none, usefulness := none, overall_score := 1/2,
    improvement_suggestions := ["评估过程失败：" ++ err] }

/-- Mean of the five dimension scores with missing keys read as 0, the
aggregate `_evaluate_response` computes when the parsed JSON lacks an
overall score. -/
def meanOfFive (j : EvalJson) : ℚ :=
  (j.relevance.getD 0 + j.accuracy.getD 0 + j.completeness.getD 0 +
    j.clarity.getD 0 + j.usefulness.getD 0) / 5

/-- Method `_evaluate_response`, over the collaborator outcome and the JSON
parser (`json.loads`, whose raised error text is its `.error` value): a
raising collaborator or a failing parse is caught and yields the 0.5
record; output without any brace-delimited fragment yields the 0.7 record;
parsed output is returned with the aggregate filled in when missing. -/
def evaluateResponse (parse : String → Except String EvalJson) :
    EvalOutcome → EvalOut
  | .failure err => failureEval err
  | .output text =>
      match extractJson text with
      | none => defaultEval07
      | some jsonStr =>
          match parse jsonStr with
          | .error err => failureEval err
          | .ok j =>
              { relevance := j.relevance, accuracy := j.accuracy,
                completeness := j.completeness, clarity := j.clarity,
                usefulness := j.usefulness,
                overall_score := j.overall_score.getD (meanOfFive j),
                improvement_suggestions := j.improvement_suggestions }

/-- The reflection while-loop of `process_message`, fuel-indexed by the
remaining rounds (`fuel = max_rounds - round`, so iteration happens exactly
while `round < max_rounds`): bump the round counter, evaluate the current
response, stop when the overall score reaches the threshold, otherwise
improve and continue.  Carries the final response, the round counter and
the last evaluation. -/
def reflectLoopAux (threshold : ℚ) (evalStep : Nat → String → EvalOut)
    (improveStep : Nat → String → EvalOut → String) :
    Nat → Nat → String → Option EvalOut → String × Nat × Option EvalOut
  | 0, round, current, lastEval => (current, round, lastEval)
  | fuel + 1, round, current, _ =>
      let r := round + 1
      let ev := evalStep r current
      if ev.overall_score ≥ threshold then (current, r, some ev)
      else
        reflectLoopAux threshold evalStep improveStep fuel r
          (improveStep r current ev) (some ev)

/-- The reflection loop of `process_message` started on the initial
response: returns the final response, the number of rounds executed and
the last evaluation (none only when `max_rounds = 0`, where the Python
code would instead hit an unbound local). -/
def reflectionLoop (maxRounds : Nat) (threshold : ℚ)
    (evalStep : Nat → String → EvalOut)
    (improveStep : Nat → String → EvalOut → String)
    (initial : String) : String × Nat × Option EvalOut :=
  reflectLoopAux threshold evalStep improveStep maxRounds 0 initial none

/-! ### Cross-agent synthesis (`src/patterns/reflection/reflection_pattern.py`) -/

/-- Result of `_synthesize_responses` (the metadata summary is keyed by
agent id and inert to the selection). -/
inductive SynthOut
  | noResponses
  | result (text mainAgent : String) (count : Nat)
deriving DecidableEq

/-- Python `max(values, key=len of text)`: iterate in insertion order and
replace the candidate only on a strictly greater length, so the first
maximal element wins. -/
def pickLongest : Option Message → List (String × Message) → Option Message
  | best, [] => best
  | none, (_, msg) :: rest => pickLongest (some msg) rest
  | some b, (_, msg) :: rest =>
      if msg.get_text_content.length > b.get_text_content.length then
        pickLongest (some msg) rest
      else pickLongest (some b) rest

/-- Method `_synthesize_responses`: empty input reports no responses,
otherwise the longest response (first maximal in insertion order) becomes
the main response, reported with its sender and the response count. -/
def synthesizeResponses (responses : List (String × Message)) : SynthOut :=
  match pickLongest none responses with
  | none => .noResponses
  | some main =>
      .result main.get_text_content main.sender_id responses.length

/-! ### Concrete instances used by witnesses and counterexamples -/

/-- A memory with the given id, importance, access count and expiry, the
other fields fixed. -/
def mkMem (id : String) (imp : MemoryImportance) (cnt : Nat)
    (expires : Option Nat) : Memory :=
  { id := id, content := "c", memory_type := .short_term, importance := imp,
    owner_id := "o", tags := [], metadata := [], created_at := 0,
    last_accessed := 0, access_count := cnt, expires_at := expires }

/-- The ten-memory eviction scenario: nine low-importance never-accessed
memories and one critical memory accessed five times, in a store at
capacity ten. -/
def tenList : List Memory :=
  [mkMem "m1" .low 0 none, mkMem "m2" .low 0 none, mkMem "m3" .low 0 none,
   mkMem "m4" .low 0 none, mkMem "m5" .low 0 none, mkMem "m6" .low 0 none,
   mkMem "m7" .low 0 none, mkMem "m8" .low 0 none, mkMem "m9" .low 0 none,
   mkMem "m10" .critical 5 none]

/-- The scenario store at capacity. -/
def tenStore : MemoryStore :=
  { max_memories := 10, memories := tenList, indices := ⟨[], [], [], []⟩ }

/-- A store holding one already-expired memory, for the expiry claims. -/
def expiredStore : MemoryStore :=
  { max_memories := 10
    memories := [mkMem "e1" .medium 0 (some 0)]
    indices := ⟨[], [], [], ⟨"MEDIUM", ["e1"]⟩ :: []⟩ }

/-- A message with the given id and priority, the other fields fixed. -/
def mkMsg (id : String) (p : MessagePriority) : Message :=
  { id := id, type := .text, content := "c", sender_id := "s",
    sender_name := "S", recipient_id := none, recipient_name := none,
    timestamp := 0, priority := p, metadata := [],
    parent_message_id := none, thread_id := none }

/-- A vector document with the given id and metadata, the other fields
fixed. -/
def mkDoc (id : String) (md : List (String × String)) : VectorDocument :=
  { id := id, content := "t", vector := [1, 0], metadata := md,
    created_at := 0, tags := [] }

/-- The duplicate-add sequence behind the C5 counterexample: add the same
id twice, then delete it. -/
def dupAddOps : List VsOp :=
  [.add (mkDoc "a" []), .add (mkDoc "a" []), .del "a"]

/-- Store with three documents of which the middle one fails the language
filter, for the rank-gap counterexample. -/
def filterStore : FaissVectorStore :=
  runVsOps 2
    [.add (mkDoc "a" [("lang", "en")]),
     .add (mkDoc "b" []),
     .add (mkDoc "c" [("lang", "en")])]

/-- Evaluation record with a fixed overall score and no other content, for
the reflection-loop witnesses. -/
def constEval (q : ℚ) : EvalOut :=
  { relevance := none, accuracy := none, completeness := none,
    clarity := none, usefulness := none, overall_score := q,
    improvement_suggestions := [] }

/-- Message carrying a given text and sender, for the synthesis claims. -/
def mkResp (sender text : String) : Message :=
  { id := sender ++ "-r", type := .text, content := text, sender_id := sender,
    sender_name := sender, recipient_id := none, recipient_name := none,
    timestamp := 0, priority := .normal, metadata := [],
    parent_message_id := none, thread_id := none }

/-! ## Helper lemmas about the MemoryStore operations -/

theorem delete_memory_memories (st : MemoryStore) (i : String) :
    ((st.delete_memory i).2).memories
      = st.memories.filter (fun m => m.id ≠ i) := by
  unfold MemoryStore.delete_memory
  split
  · next h =>
    symm
    apply List.filter_eq_self.mpr
    intro a ha
    have := List.find?_eq_none.mp h a ha
    simpa using this
  · rfl

theorem delete_memory_max (st : MemoryStore) (i : String) :
    ((st.delete_memory i).2).max_memories = st.max_memories := by
  unfold MemoryStore.delete_memory
  split <;> rfl

theorem foldl_delete_memories (ids : List String) (st : MemoryStore) :
    (ids.foldl (fun s i => (s.delete_memory i).2) st).memories
      = st.memories.filter (fun m => m.id ∉ ids) := by
  induction ids generalizing st with
  | nil => simp
  | cons i rest ih =>
      simp only [List.foldl_cons]
      rw [ih, delete_memory_memories, List.filter_filter]
      apply List.filter_congr
      intro x _
      by_cases h1 : x.id ∈ rest <;> by_cases h2 : x.id = i <;>
        simp [h1, h2]

theorem foldl_delete_max (ids : List String) (st : MemoryStore) :
    (ids.foldl (fun s i => (s.delete_memory i).2) st).max_memories
      = st.max_memories := by
  induction ids generalizing st with
  | nil => rfl
  | cons i rest ih => rw [List.foldl_cons, ih, delete_memory_max]

theorem wf_of_filter (st : MemoryStore) (p : Memory → Bool) (hwf : st.wf) :
    ((st.memories.filter p).map Memory.id).Nodup :=
  List.Nodup.sublist (List.Sublist.map Memory.id (List.filter_sublist _)) hwf

theorem cleanup_expired_memories_eq (st : MemoryStore) (now : Nat)
    (hwf : st.wf) :
    ((st.cleanup_expired_memories now).2).memories
      = st.memories.filter (fun m => ¬ m.is_expired now) := by
  unfold MemoryStore.cleanup_expired_memories
  rw [foldl_delete_memories]
  apply List.filter_congr
  intro x hx
  by_cases hexp : x.is_expired now
  · have hmem : x.id ∈ (st.memories.filter (fun m => m.is_expired now)).map Memory.id :=
      List.mem_map_of_mem _ (List.mem_filter.mpr ⟨hx, by simpa using hexp⟩)
    simp [hmem, hexp]
  · have hnot : x.id ∉ (st.memories.filter (fun m => m.is_expired now)).map Memory.id := by
      intro hmem
      obtain ⟨y, hy, hyx⟩ := List.mem_map.mp hmem
      have hy' := List.mem_filter.mp hy
      have hxy : y = x := List.inj_on_of_nodup_map hwf hy'.1 hx hyx
      rw [hxy] at hy'
      exact hexp (by simpa using hy'.2)
    simp [hnot, hexp]

theorem cleanup_expired_max (st : MemoryStore) (now : Nat) :
    ((st.cleanup_expired_memories now).2).max_memories = st.max_memories := by
  unfold MemoryStore.cleanup_expired_memories
  rw [foldl_delete_max]

theorem nodup_map_id_of_sublist {l₁ l₂ : List Memory} (h : l₁.Sublist l₂)
    (hnd : (l₂.map Memory.id).Nodup) : (l₁.map Memory.id).Nodup :=
  List.Nodup.sublist (h.map _) hnd

theorem drop_ids_disjoint (l : List Memory)
    (hnd : (l.map Memory.id).Nodup) (k : Nat) :
    ∀ a ∈ (List.insertionSort memLe l).drop k,
      a.id ∉ ((List.insertionSort memLe l).take k).map Memory.id := by
  intro a ha hmem
  have hperm : (List.insertionSort memLe l).Perm l :=
    List.perm_insertionSort memLe l
  have hmapnd : ((List.insertionSort memLe l).map Memory.id).Nodup :=
    ((hperm.map Memory.id).nodup_iff).mpr hnd
  have hmap : (List.insertionSort memLe l).map Memory.id
      = ((List.insertionSort memLe l).take k).map Memory.id
        ++ ((List.insertionSort memLe l).drop k).map Memory.id := by
    rw [← List.map_append, List.take_append_drop]
  have hd := (List.nodup_append.mp (hmap ▸ hmapnd)).2.2
  exact hd hmem (List.mem_map_of_mem _ ha)

theorem filter_sorted_removal_eq_drop (l : List Memory)
    (hnd : (l.map Memory.id).Nodup) (k : Nat) :
    ((List.insertionSort memLe l).filter (fun m =>
        m.id ∉ ((List.insertionSort memLe l).take k).map Memory.id))
      = (List.insertionSort memLe l).drop k := by
  have h2 : (List.insertionSort memLe l).filter (fun m =>
        m.id ∉ ((List.insertionSort memLe l).take k).map Memory.id)
      = ((List.insertionSort memLe l).take k).filter (fun m =>
          m.id ∉ ((List.insertionSort memLe l).take k).map Memory.id)
        ++ ((List.insertionSort memLe l).drop k).filter (fun m =>
          m.id ∉ ((List.insertionSort memLe l).take k).map Memory.id) := by
    rw [← List.filter_append, List.take_append_drop]
  rw [h2]
  have h3 : ((List.insertionSort memLe l).take k).filter (fun m =>
      m.id ∉ ((List.insertionSort memLe l).take k).map Memory.id) = [] := by
    apply List.filter_eq_nil_iff.mpr
    intro a ha
    have hmem : a.id ∈ ((List.insertionSort memLe l).take k).map Memory.id :=
      List.mem_map_of_mem _ ha
    simpa using hmem
  have h4 : ((List.insertionSort memLe l).drop k).filter (fun m =>
      m.id ∉ ((List.insertionSort memLe l).take k).map Memory.id)
      = (List.insertionSort memLe l).drop k := by
    apply List.filter_eq_self.mpr
    intro a ha
    simpa using drop_ids_disjoint l hnd k a ha
  rw [h3, h4, List.nil_append]

theorem length_after_sorted_removal (l : List Memory)
    (hnd : (l.map Memory.id).Nodup) (k : Nat) :
    (l.filter (fun m =>
        m.id ∉ ((List.insertionSort memLe l).take k).map Memory.id)).length
      = l.length - k := by
  have hperm : (List.insertionSort memLe l).Perm l :=
    List.perm_insertionSort memLe l
  have h1 : ((List.insertionSort memLe l).filter (fun m =>
      m.id ∉ ((List.insertionSort memLe l).take k).map Memory.id)).length
      = (l.filter (fun m =>
      m.id ∉ ((List.insertionSort memLe l).take k).map Memory.id)).length :=
    (hperm.filter _).length_eq
  rw [← h1, filter_sorted_removal_eq_drop l hnd k, List.length_drop,
    hperm.length_eq]

theorem cleanupMemories_memories (st : MemoryStore) (now : Nat)
    (hwf : st.wf) :
    (st.cleanupMemories now).memories =
      if st.max_memories ≤ (st.memories.filter (fun m => ¬ m.is_expired now)).length then
        (st.memories.filter (fun m => ¬ m.is_expired now)).filter (fun m =>
          m.id ∉ ((List.insertionSort memLe
              (st.memories.filter (fun m => ¬ m.is_expired now))).take
            ((st.memories.filter (fun m => ¬ m.is_expired now)).length / 10)).map Memory.id)
      else st.memories.filter (fun m => ¬ m.is_expired now) := by
  unfold MemoryStore.cleanupMemories
  have h1 := cleanup_expired_memories_eq st now hwf
  have h2 := cleanup_expired_max st now
  simp only [h1, h2, ge_iff_le]
  split
  · rw [foldl_delete_memories, h1]
  · exact h1

theorem cleanupMemories_max (st : MemoryStore) (now : Nat) :
    (st.cleanupMemories now).max_memories = st.max_memories := by
  unfold MemoryStore.cleanupMemories
  simp only
  split
  · rw [foldl_delete_max, cleanup_expired_max]
  · rw [cleanup_expired_max]

theorem cleanupMemories_wf (st : MemoryStore) (now : Nat) (hwf : st.wf) :
    (st.cleanupMemories now).wf := by
  unfold MemoryStore.wf
  rw [cleanupMemories_memories st now hwf]
  split
  · exact nodup_map_id_of_sublist
      ((List.filter_sublist _).trans (List.filter_sublist _)) hwf
  · exact nodup_map_id_of_sublist (List.filter_sublist _) hwf

theorem memLe_refl (m : Memory) : memLe m m :=
  Or.inr ⟨rfl, le_refl _⟩

theorem sorted_take_le_drop (l : List Memory) (k : Nat) :
    ∀ x ∈ (List.insertionSort memLe l).take k,
      ∀ y ∈ (List.insertionSort memLe l).drop k, memLe x y := by
  have hs : List.Sorted memLe (List.insertionSort memLe l) :=
    List.sorted_insertionSort memLe l
  have hpw : List.Pairwise memLe
      ((List.insertionSort memLe l).take k ++ (List.insertionSort memLe l).drop k) := by
    rw [List.take_append_drop]
    exact hs
  exact (List.pairwise_append.mp hpw).2.2

theorem not_in_sorted_take_of_many_below (l : List Memory)
    (hnd : (l.map Memory.id).Nodup) (m : Memory) (hm : m ∈ l) (j : Nat)
    (hj : j ≤ (l.filter (fun x => ¬ memLe m x)).length) :
    m.id ∉ ((List.insertionSort memLe l).take j).map Memory.id := by
  intro hmem
  have hperm : (List.insertionSort memLe l).Perm l :=
    List.perm_insertionSort memLe l
  obtain ⟨y, hy, hyid⟩ := List.mem_map.mp hmem
  have hyl : y ∈ l := hperm.mem_iff.mp (List.mem_of_mem_take hy)
  have hym : y = m := List.inj_on_of_nodup_map hnd hyl hm hyid
  subst hym
  obtain ⟨A, B₁, hAB⟩ := List.append_of_mem hy
  have hsplit : List.insertionSort memLe l
      = A ++ y :: (B₁ ++ (List.insertionSort memLe l).drop j) := by
    conv_lhs => rw [← List.take_append_drop j (List.insertionSort memLe l)]
    rw [hAB]
    simp
  have hlenA : A.length < j := by
    have h1 : ((List.insertionSort memLe l).take j).length ≤ j := by
      rw [List.length_take]; omega
    rw [hAB] at h1
    simp at h1
    omega
  have hs : List.Sorted memLe (List.insertionSort memLe l) :=
    List.sorted_insertionSort memLe l
  have htail : List.Pairwise memLe (y :: (B₁ ++ (List.insertionSort memLe l).drop j)) := by
    apply List.Pairwise.sublist _ (hsplit ▸ hs)
    exact List.sublist_append_right A _
  have hge : ∀ z ∈ B₁ ++ (List.insertionSort memLe l).drop j, memLe y z :=
    (List.pairwise_cons.mp htail).1
  have hfil : (List.insertionSort memLe l).filter (fun x => ¬ memLe y x)
      = A.filter (fun x => ¬ memLe y x) := by
    rw [hsplit, List.filter_append]
    have h0 : List.filter (fun x => decide ¬ memLe y x)
        (y :: (B₁ ++ (List.insertionSort memLe l).drop j)) = [] := by
      apply List.filter_eq_nil_iff.mpr
      intro z hz
      rcases List.mem_cons.mp hz with hz1 | hz2
      · subst hz1; simp [memLe_refl z]
      · simp [hge z hz2]
    rw [h0, List.append_nil]
  have hcount : (l.filter (fun x => ¬ memLe y x)).length
      = ((List.insertionSort memLe l).filter (fun x => ¬ memLe y x)).length :=
    ((hperm.filter _).length_eq).symm
  have hsmall : (A.filter (fun x => ¬ memLe y x)).length ≤ A.length :=
    List.length_filter_le _ _
  rw [hcount, hfil] at hj
  omega

/-- C2: when `store_memory` triggers eviction, `_cleanup_memories` first
removes every expired memory; if the survivors still fill the store to
capacity, the memories are sorted ascending by
`(importance.value, access_count)` and exactly `floor(n * 0.1)` lowest ones
are deleted (each deleted memory compares at or below every survivor); and
any memory strictly above at least `j` others never sits in the first `j`
slots of the eviction order — in particular the critical memory of the
ten-memory scenario survives every pass that removes at most nine items. -/
theorem eviction_two_phase (st : MemoryStore) (now : Nat) (hwf : st.wf)
    (_htrig : st.max_memories ≤ st.memories.length) :
    ((st.memories.filter (fun m => ¬ m.is_expired now)).length < st.max_memories →
      (st.cleanupMemories now).memories
        = st.memories.filter (fun m => ¬ m.is_expired now))
    ∧ (st.max_memories ≤ (st.memories.filter (fun m => ¬ m.is_expired now)).length →
        (st.cleanupMemories now).memories
          = (st.memories.filter (fun m => ¬ m.is_expired now)).filter (fun m =>
              m.id ∉ ((List.insertionSort memLe
                  (st.memories.filter (fun m => ¬ m.is_expired now))).take
                ((st.memories.filter (fun m => ¬ m.is_expired now)).length / 10)).map
                Memory.id)
        ∧ (st.cleanupMemories now).memories.length
            = (st.memories.filter (fun m => ¬ m.is_expired now)).length
              - (st.memories.filter (fun m => ¬ m.is_expired now)).length / 10
        ∧ ∀ x ∈ (List.insertionSort memLe
              (st.memories.filter (fun m => ¬ m.is_expired now))).take
            ((st.memories.filter (fun m => ¬ m.is_expired now)).length / 10),
            ∀ y ∈ (st.cleanupMemories now).memories, memLe x y)
    ∧ (∀ m ∈ st.memories.filter (fun x => ¬ x.is_expired now), ∀ j : Nat,
        j ≤ ((st.memories.filter (fun x => ¬ x.is_expired now)).filter
            (fun x => ¬ memLe m x)).length →
        m.id ∉ ((List.insertionSort memLe
            (st.memories.filter (fun x => ¬ x.is_expired now))).take j).map
          Memory.id) := by
  have hchar := cleanupMemories_memories st now hwf
  have hnd : ((st.memories.filter (fun m => ¬ m.is_expired now)).map Memory.id).Nodup :=
    wf_of_filter st _ hwf
  refine ⟨?_, ?_, ?_⟩
  · intro hlt
    rw [hchar, if_neg (by omega)]
  · intro hge
    have hB : (st.cleanupMemories now).memories
        = (st.memories.filter (fun m => ¬ m.is_expired now)).filter (fun m =>
            m.id ∉ ((List.insertionSort memLe
                (st.memories.filter (fun m => ¬ m.is_expired now))).take
              ((st.memories.filter (fun m => ¬ m.is_expired now)).length / 10)).map
              Memory.id) := by
      rw [hchar, if_pos hge]
    refine ⟨hB, ?_, ?_⟩
    · rw [hB, length_after_sorted_removal _ hnd]
    · intro x hx y hy
      rw [hB] at hy
      have hy' := List.mem_filter.mp hy
      have hyal : y ∈ st.memories.filter (fun m => ¬ m.is_expired now) := hy'.1
      have hynotin : y.id ∉ ((List.insertionSort memLe
          (st.memories.filter (fun m => ¬ m.is_expired now))).take
            ((st.memories.filter (fun m => ¬ m.is_expired now)).length / 10)).map
          Memory.id := by simpa using hy'.2
      have hysort : y ∈ List.insertionSort memLe
          (st.memories.filter (fun m => ¬ m.is_expired now)) :=
        (List.perm_insertionSort memLe _).mem_iff.mpr hyal
      have hydrop : y ∈ (List.insertionSort memLe
          (st.memories.filter (fun m => ¬ m.is_expired now))).drop
            ((st.memories.filter (fun m => ¬ m.is_expired now)).length / 10) := by
        have hcat : y ∈ (List.insertionSort memLe
            (st.memories.filter (fun m => ¬ m.is_expired now))).take
              ((st.memories.filter (fun m => ¬ m.is_expired now)).length / 10)
            ++ (List.insertionSort memLe
            (st.memories.filter (fun m => ¬ m.is_expired now))).drop
              ((st.memories.filter (fun m => ¬ m.is_expired now)).length / 10) := by
          rw [List.take_append_drop]
          exact hysort
        rcases List.mem_append.mp hcat with h1 | h2
        · exact absurd (List.mem_map_of_mem _ h1) hynotin
        · exact h2
      exact sorted_take_le_drop
        (st.memories.filter (fun m => ¬ m.is_expired now))
        ((st.memories.filter (fun m => ¬ m.is_expired now)).length / 10)
        x hx y hydrop
  · intro m hm j hj
    exact not_in_sorted_take_of_many_below _ hnd m hm j hj

/-- Witness: the ten-memory scenario (nine low never-accessed memories and
one critical memory with access count five) at capacity ten triggers
eviction; the critical memory is outside the first nine slots of the
eviction order and survives the actual pass. -/
theorem eviction_two_phase_witness :
    tenStore.wf ∧ tenStore.max_memories ≤ tenStore.memories.length
    ∧ ((mkMem "m10" .critical 5 none).id ∉
        ((List.insertionSort memLe
            (tenStore.memories.filter (fun x => ¬ x.is_expired 0))).take 9).map
          Memory.id)
    ∧ "m10" ∈ (tenStore.cleanupMemories 0).memories.map Memory.id := by
  refine ⟨by decide, by decide, ?_, by decide⟩
  exact (eviction_two_phase tenStore 0 (by decide) (by decide)).2.2
    (mkMem "m10" .critical 5 none) (by decide) 9 (by decide)

/-- C10: an expired memory still physically present is not purged by
`update_memory_importance`, which returns true, rewrites the importance of
the stored entry and refreshes the importance index; `get_memory` on the
same id instead returns none and physically deletes it. -/
theorem update_importance_ignores_expiry (st : MemoryStore) (now : Nat)
    (memoryId : String) (m : Memory) (imp : MemoryImportance)
    (hfind : st.memories.find? (fun x => x.id = memoryId) = some m)
    (hexp : m.is_expired now = true) :
    (st.update_memory_importance memoryId imp).1 = true
    ∧ ((st.update_memory_importance memoryId imp).2).memories
        = st.memories.map (fun x =>
            if x.id = memoryId then { m with importance := imp } else x)
    ∧ ((st.update_memory_importance memoryId imp).2).memories.map Memory.id
        = st.memories.map Memory.id
    ∧ { m with importance := imp } ∈
        ((st.update_memory_importance memoryId imp).2).memories
    ∧ ((st.update_memory_importance memoryId imp).2).indices
        = updateImportanceIndex { m with importance := imp } m.importance
            st.indices
    ∧ (st.get_memory now memoryId).1 = none
    ∧ ((st.get_memory now memoryId).2).memories
        = st.memories.filter (fun x => x.id ≠ memoryId) := by
  have hid : m.id = memoryId := by
    have := List.find?_some hfind
    simpa using this
  have hmem : m ∈ st.memories := List.mem_of_find?_eq_some hfind
  refine ⟨?_, ?_, ?_, ?_, ?_, ?_, ?_⟩
  · unfold MemoryStore.update_memory_importance
    rw [hfind]
  · unfold MemoryStore.update_memory_importance
    rw [hfind]
  · unfold MemoryStore.update_memory_importance
    rw [hfind]
    simp only [List.map_map]
    apply List.map_congr_left
    intro x _
    by_cases hx : x.id = memoryId
    · simp [hx, hid]
    · simp [hx]
  · unfold MemoryStore.update_memory_importance
    rw [hfind]
    simp only
    have := List.mem_map_of_mem
      (fun x => if x.id = memoryId then { m with importance := imp } else x) hmem
    simpa [hid] using this
  · unfold MemoryStore.update_memory_importance
    rw [hfind]
  · unfold MemoryStore.get_memory
    rw [hfind]
    simp [hexp]
  · unfold MemoryStore.get_memory
    rw [hfind]
    simp [hexp, delete_memory_memories]

theorem memDictSet_length_le (m : Memory) (l : List Memory) :
    (memDictSet m l).length ≤ l.length + 1 := by
  unfold memDictSet
  split
  · simp
  · simp

theorem memDictSet_wf (m : Memory) (l : List Memory)
    (h : (l.map Memory.id).Nodup) : ((memDictSet m l).map Memory.id).Nodup := by
  unfold memDictSet
  split
  · next hany =>
    have hmap : (l.map (fun x => if x.id = m.id then m else x)).map Memory.id
        = l.map Memory.id := by
      rw [List.map_map]
      apply List.map_congr_left
      intro x _
      by_cases hx : x.id = m.id
      · simp [Function.comp, hx]
      · simp [Function.comp, hx]
    rw [hmap]
    exact h
  · next hany =>
    rw [List.map_append]
    apply List.nodup_append.mpr
    refine ⟨h, List.nodup_singleton _, ?_⟩
    intro a ha hb
    obtain ⟨x, hx, hxa⟩ := List.mem_map.mp ha
    have hb' : a = m.id := by simpa using hb
    apply hany
    apply List.any_eq_true.mpr
    exact ⟨x, hx, by simp [hxa, hb']⟩

theorem store_memory_step (st : MemoryStore) (now : Nat) (m : Memory)
    (h10 : 10 ≤ st.max_memories) (hwf : st.wf)
    (hlen : st.memories.length ≤ st.max_memories) :
    ((st.store_memory now m).2).wf
    ∧ ((st.store_memory now m).2).memories.length ≤ st.max_memories
    ∧ ((st.store_memory now m).2).max_memories = st.max_memories := by
  unfold MemoryStore.store_memory
  by_cases hc : st.memories.length ≥ st.max_memories
  · have hwf₁ : (st.cleanupMemories now).wf := cleanupMemories_wf st now hwf
    have hlen₁ : (st.cleanupMemories now).memories.length ≤ st.max_memories - 1 := by
      rw [cleanupMemories_memories st now hwf]
      have hfle : (st.memories.filter (fun m => ¬ m.is_expired now)).length
          ≤ st.memories.length := List.length_filter_le _ _
      split
      · next hge =>
        rw [length_after_sorted_removal _ (wf_of_filter st _ hwf)]
        have hdiv : 1 ≤ (st.memories.filter (fun m => ¬ m.is_expired now)).length / 10 :=
          (Nat.one_le_div_iff (by omega)).mpr (by omega)
        omega
      · next hlt => omega
    constructor
    · simp only [if_pos hc]
      exact memDictSet_wf m _ hwf₁
    constructor
    · simp only [if_pos hc]
      have := memDictSet_length_le m (st.cleanupMemories now).memories
      omega
    · simp only [if_pos hc]
      exact cleanupMemories_max st now
  · constructor
    · simp only [if_neg hc]
      exact memDictSet_wf m _ hwf
    constructor
    · simp only [if_neg hc]
      have := memDictSet_length_le m st.memories
      omega
    · simp only [if_neg hc]

theorem foldl_store_bound (ops : List (Nat × Memory)) :
    ∀ st : MemoryStore, 10 ≤ st.max_memories → st.wf →
      st.memories.length ≤ st.max_memories →
      (ops.foldl (fun s p => (s.store_memory p.1 p.2).2) st).wf
      ∧ (ops.foldl (fun s p => (s.store_memory p.1 p.2).2) st).memories.length
          ≤ st.max_memories
      ∧ (ops.foldl (fun s p => (s.store_memory p.1 p.2).2) st).max_memories
          = st.max_memories := by
  induction ops with
  | nil => exact fun st _ hwf hlen => ⟨hwf, hlen, rfl⟩
  | cons p rest ih =>
      intro st h10 hwf hlen
      obtain ⟨w1, w2, w3⟩ := store_memory_step st p.1 p.2 h10 hwf hlen
      obtain ⟨r1, r2, r3⟩ := ih ((st.store_memory p.1 p.2).2)
        (by omega) w1 (by omega)
      rw [List.foldl_cons]
      exact ⟨r1, by omega, by omega⟩

/-- C1 amended: for any `max_memories ≥ 10` and any sequence of
`store_memory` calls on a fresh store, the primary mapping never exceeds
`max_memories` entries after a call returns.  (For `max_memories < 10` the
invariant fails, see the counterexample: a full store of fewer than ten
non-expired entries evicts `int(n * 0.1) = 0` memories and the insert
overshoots.) -/
theorem capacity_bound_ten (ops : List (Nat × Memory)) (maxMemories : Nat)
    (h10 : 10 ≤ maxMemories) :
    (ops.foldl (fun s p => (s.store_memory p.1 p.2).2)
        (MemoryStore.init maxMemories)).memories.length ≤ maxMemories := by
  have h := foldl_store_bound ops (MemoryStore.init maxMemories) h10
    (by unfold MemoryStore.wf MemoryStore.init; simp)
    (by unfold MemoryStore.init; simp)
  exact h.2.1

/-- Witness: eleven stores of distinct fresh memories into a capacity-ten
store stay within the bound. -/
theorem capacity_bound_ten_witness :
    (10 ≤ 10)
    ∧ (((tenList.map (fun m => ((0 : Nat), m))
          ++ [(0, mkMem "m11" .low 0 none)]).foldl
        (fun (s : MemoryStore) (p : Nat × Memory) => (s.store_memory p.1 p.2).2)
        (MemoryStore.init 10)).memories.length ≤ 10) :=
  ⟨by decide, capacity_bound_ten _ 10 (by decide)⟩

/-- C1 counterexample: with `max_memories = 1`, two `store_memory` calls of
distinct non-expired memories leave two entries in the primary mapping,
violating the claimed bound for arbitrary `max_memories`. -/
theorem capacity_bound_cex :
    (((MemoryStore.init 1).store_memory 0 (mkMem "a" .low 0 none)).2.store_memory 0
        (mkMem "b" .low 0 none)).2.memories.length = 2
    ∧ ¬ ((((MemoryStore.init 1).store_memory 0 (mkMem "a" .low 0 none)).2.store_memory 0
        (mkMem "b" .low 0 none)).2.memories.length ≤ 1) := by
  decide

/-- Witness: a store holding one memory expired at tick 0, updated at tick
1: the update succeeds and keeps the entry, the get purges it. -/
theorem update_importance_ignores_expiry_witness :
    expiredStore.memories.find? (fun x => x.id = "e1")
        = some (mkMem "e1" .medium 0 (some 0))
    ∧ (mkMem "e1" .medium 0 (some 0)).is_expired 1 = true
    ∧ (expiredStore.update_memory_importance "e1" .high).1 = true
    ∧ (expiredStore.get_memory 1 "e1").1 = none := by
  refine ⟨by decide, by decide, ?_, ?_⟩
  · exact (update_importance_ignores_expiry expiredStore 1 "e1"
      (mkMem "e1" .medium 0 (some 0)) .high (by decide) (by decide)).1
  · exact (update_importance_ignores_expiry expiredStore 1 "e1"
      (mkMem "e1" .medium 0 (some 0)) .high (by decide) (by decide)).2.2.2.2.2.1

/-! ## The MessageQueue claims -/

/-- C3: the claimed `max_size + k` put sequence cannot complete as
executed: with capacity 2 and three puts of explicitly set priorities low,
urgent, low, the first put appends without evaluating a comparison, and
the second put raises `AttributeError` inside the priority comparison (the
validated priority attribute is a plain int under `use_enum_values`), so
the queue never reaches the claimed state of `size() = max_size` holding
exactly the last `max_size` inserted messages. -/
theorem queue_put_sequence_raises :
    (MessageQueue.initQ 2).putChecked (mkMsg "a" .low)
        = .ok { max_size := 2, messages := [mkMsg "a" .low] }
    ∧ runPutsChecked 2 [mkMsg "a" .low, mkMsg "b" .urgent, mkMsg "c" .low]
        = .error "AttributeError" :=
  ⟨rfl, rfl⟩

/-- C4: the `put` code as executed raises: the first put on an empty queue
succeeds (the comparison loop body never runs), but the second evaluates
`message.priority.value` on the int that `use_enum_values` stored and gets
`AttributeError`, instead of inserting by priority as the claim describes. -/
theorem put_raises_attribute_error :
    (MessageQueue.initQ 5).putChecked (mkMsg "a" .low)
        = .ok { max_size := 5, messages := [mkMsg "a" .low] }
    ∧ ({ max_size := 5, messages := [mkMsg "a" .low] } : MessageQueue).putChecked
        (mkMsg "b" .urgent) = .error "AttributeError" :=
  ⟨rfl, rfl⟩

/-! ## Lemmas about the dict primitives and the FaissVectorStore -/

theorem dictGet_dictSet_same {K V : Type} [DecidableEq K] (k : K) (v : V)
    (d : List (K × V)) : dictGet k (dictSet k v d) = some v := by
  induction d with
  | nil => simp [dictSet, dictGet]
  | cons p rest ih =>
      unfold dictSet
      by_cases hp : p.1 = k
      · rw [if_pos hp]
        simp [dictGet]
      · rw [if_neg hp]
        unfold dictGet
        rw [if_neg hp]
        exact ih

theorem dictGet_dictDel_same {K V : Type} [DecidableEq K] (k : K)
    (d : List (K × V)) : dictGet k (dictDel k d) = none := by
  induction d with
  | nil => rfl
  | cons p rest ih =>
      unfold dictDel at ih ⊢
      by_cases hp : p.1 = k
      · rw [List.filter_cons_of_neg (by simp [hp])]
        exact ih
      · rw [List.filter_cons_of_pos (by simp [hp])]
        unfold dictGet
        rw [if_neg hp]
        exact ih

theorem dictGet_eq_none_iff {K V : Type} [DecidableEq K] (k : K)
    (d : List (K × V)) : dictGet k d = none ↔ k ∉ d.map Prod.fst := by
  induction d with
  | nil => simp [dictGet]
  | cons p rest ih =>
      unfold dictGet
      by_cases hp : p.1 = k
      · rw [if_pos hp]
        simp [hp]
      · rw [if_neg hp]
        simp only [List.map_cons, List.mem_cons]
        rw [ih]
        constructor
        · intro h hc
          rcases hc with hc | hc
          · exact hp hc.symm
          · exact h hc
        · intro h hc
          exact h (Or.inr hc)

theorem dictGet_isSome_iff {K V : Type} [DecidableEq K] (k : K)
    (d : List (K × V)) : (dictGet k d).isSome = true ↔ k ∈ d.map Prod.fst := by
  rcases h : dictGet k d with _ | v
  · simp only [Option.isSome_none]
    constructor
    · intro hc; exact absurd hc (by simp)
    · intro hc
      exact absurd hc ((dictGet_eq_none_iff k d).mp h)
  · simp only [Option.isSome_some, true_iff]
    by_contra hc
    rw [(dictGet_eq_none_iff k d).mpr hc] at h
    exact Option.noConfusion h

theorem dictGet_some_mem {K V : Type} [DecidableEq K] {k : K} {v : V}
    {d : List (K × V)} (h : dictGet k d = some v) : (k, v) ∈ d := by
  induction d with
  | nil => exact absurd h (by simp [dictGet])
  | cons p rest ih =>
      unfold dictGet at h
      by_cases hp : p.1 = k
      · rw [if_pos hp] at h
        have : p = (k, v) := by
          cases p
          simp at hp h ⊢
          exact ⟨hp, Option.some.inj (by simpa using h)⟩
        rw [← this]
        exact List.mem_cons_self p rest
      · rw [if_neg hp] at h
        exact List.mem_cons_of_mem p (ih h)

theorem dictSet_of_not_mem {K V : Type} [DecidableEq K] {k : K} (v : V)
    {d : List (K × V)} (h : k ∉ d.map Prod.fst) :
    dictSet k v d = d ++ [(k, v)] := by
  induction d with
  | nil => rfl
  | cons p rest ih =>
      unfold dictSet
      have hp : p.1 ≠ k := by
        intro hc
        exact h (by simp [hc])
      rw [if_neg hp]
      rw [ih (by intro hc; exact h (by simp [hc]))]
      simp

theorem mem_dictDel {K V : Type} [DecidableEq K] {k : K} {p : K × V}
    {d : List (K × V)} : p ∈ dictDel k d ↔ p ∈ d ∧ p.1 ≠ k := by
  unfold dictDel
  rw [List.mem_filter]
  simp

theorem dictDel_keys {K V : Type} [DecidableEq K] (k : K) (d : List (K × V)) :
    (dictDel k d).map Prod.fst = (d.map Prod.fst).filter (fun x => x ≠ k) := by
  induction d with
  | nil => rfl
  | cons p rest ih =>
      unfold dictDel at ih ⊢
      by_cases hp : p.1 = k
      · rw [List.filter_cons_of_neg (by simp [hp]), List.map_cons,
          List.filter_cons_of_neg (by simp [hp])]
        exact ih
      · rw [List.filter_cons_of_pos (by simp [hp]), List.map_cons, List.map_cons,
          List.filter_cons_of_pos (by simp [hp])]
        rw [ih]

theorem dictSet_keys {K V : Type} [DecidableEq K] (k : K) (v : V)
    (d : List (K × V)) :
    (dictSet k v d).map Prod.fst =
      if k ∈ d.map Prod.fst then d.map Prod.fst
      else d.map Prod.fst ++ [k] := by
  induction d with
  | nil => simp [dictSet]
  | cons p rest ih =>
      unfold dictSet
      by_cases hp : p.1 = k
      · rw [if_pos hp]
        simp [hp]
      · rw [if_neg hp]
        simp only [List.map_cons]
        rw [ih]
        by_cases hm : k ∈ rest.map Prod.fst
        · rw [if_pos hm, if_pos (by simp [hm])]
        · rw [if_neg hm, if_neg (by
            simp only [List.mem_cons]
            intro hc
            rcases hc with hc | hc
            · exact hp hc.symm
            · exact hm hc)]
          rfl

theorem nodup_dictDel_keys {K V : Type} [DecidableEq K] (k : K)
    (d : List (K × V)) (h : (d.map Prod.fst).Nodup) :
    ((dictDel k d).map Prod.fst).Nodup := by
  rw [dictDel_keys]
  exact List.Nodup.sublist (List.filter_sublist _) h

theorem eq_snd_of_mem_nodup_fst {K V : Type} {d : List (K × V)}
    (h : (d.map Prod.fst).Nodup) {k : K} {v w : V}
    (h1 : (k, v) ∈ d) (h2 : (k, w) ∈ d) : v = w := by
  have := List.inj_on_of_nodup_map h h1 h2 rfl
  exact congrArg Prod.snd this

theorem mem_keys_iff_exists {K V : Type} (k : K) (d : List (K × V)) :
    k ∈ d.map Prod.fst ↔ ∃ v, (k, v) ∈ d := by
  constructor
  · intro h
    obtain ⟨p, hp, hpk⟩ := List.mem_map.mp h
    exact ⟨p.2, by rw [← hpk]; simpa using hp⟩
  · intro ⟨v, hv⟩
    exact List.mem_map_of_mem Prod.fst hv

theorem mem_vals_iff_exists {K V : Type} (v : V) (d : List (K × V)) :
    v ∈ d.map Prod.snd ↔ ∃ k, (k, v) ∈ d := by
  constructor
  · intro h
    obtain ⟨p, hp, hpv⟩ := List.mem_map.mp h
    exact ⟨p.1, by rw [← hpv]; simpa using hp⟩
  · intro ⟨k, hk⟩
    exact List.mem_map_of_mem Prod.snd hk

/-- Combined invariant carried over operation sequences: the document table
and the forward slot mapping list the same ids in the same order, plus the
slot-mapping invariant. -/
def FaissVectorStore.inv (st : FaissVectorStore) : Prop :=
  st.documents.map Prod.fst = st.id_to_index.map Prod.fst ∧ st.slotInv

theorem init_inv (d : Nat) : (FaissVectorStore.init d).inv := by
  unfold FaissVectorStore.inv FaissVectorStore.slotInv FaissVectorStore.init
  refine ⟨rfl, List.nodup_nil, List.nodup_nil, ?_, ?_, ?_⟩
  · intro p hp; exact absurd hp (List.not_mem_nil p)
  · intro p hp; exact absurd hp (List.not_mem_nil p)
  · intro i n
    constructor
    · intro h; exact absurd h (List.not_mem_nil _)
    · intro h; exact absurd h (List.not_mem_nil _)

theorem add_inv (st : FaissVectorStore) (doc : VectorDocument)
    (hinv : st.inv) (hfresh : dictGet doc.id st.documents = none) :
    ((st.add_document doc).2).inv := by
  obtain ⟨hkeys, hnd1, hnd2, hb1, hb2, hbij⟩ := hinv
  have hfresh1 : doc.id ∉ st.documents.map Prod.fst :=
    (dictGet_eq_none_iff _ _).mp hfresh
  have hfresh2 : doc.id ∉ st.id_to_index.map Prod.fst := hkeys ▸ hfresh1
  have hfresh3 : st.next_index ∉ st.index_to_id.map Prod.fst := by
    intro hc
    obtain ⟨n, hn⟩ := (mem_keys_iff_exists _ _).mp hc
    have := hb2 _ hn
    simp at this
  unfold FaissVectorStore.add_document FaissVectorStore.inv
    FaissVectorStore.slotInv
  simp only
  rw [dictSet_of_not_mem doc hfresh1, dictSet_of_not_mem st.next_index hfresh2,
    dictSet_of_not_mem doc.id hfresh3]
  refine ⟨?_, ?_, ?_, ?_, ?_, ?_⟩
  · rw [List.map_append, List.map_append, hkeys]
    rfl
  · rw [List.map_append]
    exact List.nodup_append.mpr ⟨hnd1, List.nodup_singleton _,
      by intro a ha hb; rw [List.mem_singleton.mp hb] at ha; exact hfresh2 ha⟩
  · rw [List.map_append]
    exact List.nodup_append.mpr ⟨hnd2, List.nodup_singleton _,
      by intro a ha hb; rw [List.mem_singleton.mp hb] at ha; exact hfresh3 ha⟩
  · intro p hp
    rcases List.mem_append.mp hp with h | h
    · have := hb1 p h
      omega
    · rw [List.mem_singleton.mp h]
      omega
  · intro p hp
    rcases List.mem_append.mp hp with h | h
    · have := hb2 p h
      omega
    · rw [List.mem_singleton.mp h]
      omega
  · intro i n
    constructor
    · intro h
      rcases List.mem_append.mp h with h | h
      · exact List.mem_append.mpr (Or.inl ((hbij i n).mp h))
      · have := List.mem_singleton.mp h
        apply List.mem_append.mpr
        right
        simp at this ⊢
        exact ⟨this.2, this.1⟩
    · intro h
      rcases List.mem_append.mp h with h | h
      · exact List.mem_append.mpr (Or.inl ((hbij i n).mpr h))
      · have := List.mem_singleton.mp h
        apply List.mem_append.mpr
        right
        simp at this ⊢
        exact ⟨this.2, this.1⟩

theorem del_inv (st : FaissVectorStore) (i : String) (hinv : st.inv) :
    ((st.delete_document i).2).inv := by
  obtain ⟨hkeys, hnd1, hnd2, hb1, hb2, hbij⟩ := hinv
  unfold FaissVectorStore.delete_document
  by_cases hpres : (dictGet i st.documents).isSome = true
  · rw [if_pos hpres]
    have hmemk : i ∈ st.documents.map Prod.fst := (dictGet_isSome_iff _ _).mp hpres
    have hmemk2 : i ∈ st.id_to_index.map Prod.fst := hkeys ▸ hmemk
    obtain ⟨idx, hidx⟩ := Option.isSome_iff_exists.mp
      ((dictGet_isSome_iff _ _).mpr hmemk2)
    rw [hidx]
    have hpair : (i, idx) ∈ st.id_to_index := dictGet_some_mem hidx
    unfold FaissVectorStore.inv FaissVectorStore.slotInv
    simp only
    refine ⟨?_, ?_, ?_, ?_, ?_, ?_⟩
    · rw [dictDel_keys, dictDel_keys, hkeys]
    · exact nodup_dictDel_keys _ _ hnd1
    · exact nodup_dictDel_keys _ _ hnd2
    · intro p hp
      exact hb1 p (mem_dictDel.mp hp).1
    · intro p hp
      exact hb2 p (mem_dictDel.mp hp).1
    · intro i₁ n₁
      rw [mem_dictDel, mem_dictDel]
      simp only
      constructor
      · intro ⟨hm, hne⟩
        refine ⟨(hbij i₁ n₁).mp hm, ?_⟩
        intro hc
        rw [hc] at hm
        exact hne (eq_snd_of_mem_nodup_fst hnd2 ((hbij i₁ idx).mp hm)
          ((hbij i idx).mp hpair))
      · intro ⟨hm, hne⟩
        refine ⟨(hbij i₁ n₁).mpr hm, ?_⟩
        intro hc
        rw [hc] at hm
        have hpair₁ : (i, n₁) ∈ st.id_to_index := (hbij i n₁).mpr hm
        exact hne (eq_snd_of_mem_nodup_fst hnd1 hpair₁ hpair)
  · rw [if_neg hpres]
    exact ⟨hkeys, hnd1, hnd2, hb1, hb2, hbij⟩

theorem delete_document_documents (st : FaissVectorStore) (i : String)
    (hpres : (dictGet i st.documents).isSome = true) :
    ((st.delete_document i).2).documents = dictDel i st.documents := by
  unfold FaissVectorStore.delete_document
  rw [if_pos hpres]
  split <;> rfl

theorem upd_inv (st : FaissVectorStore) (i : String) (doc : VectorDocument)
    (hinv : st.inv)
    (hfresh : doc.id = i ∨ dictGet doc.id st.documents = none) :
    ((st.update_document i doc).2).inv := by
  unfold FaissVectorStore.update_document
  by_cases hpres : (dictGet i st.documents).isSome = true
  · rw [if_pos hpres]
    apply add_inv _ _ (del_inv st i hinv)
    rw [delete_document_documents st i hpres]
    rcases hfresh with h | h
    · rw [h]
      exact dictGet_dictDel_same i _
    · rw [dictGet_eq_none_iff] at h ⊢
      rw [dictDel_keys]
      intro hc
      exact h (List.mem_of_mem_filter hc)
  · rw [if_neg hpres]
    exact hinv

theorem foldl_vsops_inv (ops : List VsOp) :
    ∀ st : FaissVectorStore, st.inv → vsOpsFresh st ops →
      (ops.foldl applyVsOp st).inv := by
  induction ops with
  | nil => exact fun st hinv _ => hinv
  | cons op rest ih =>
      intro st hinv hfresh
      obtain ⟨hf, hrest⟩ := hfresh
      rw [List.foldl_cons]
      apply ih _ _ hrest
      cases op with
      | add doc => exact add_inv st doc hinv hf
      | del i => exact del_inv st i hinv
      | upd i doc => exact upd_inv st i doc hinv hf

/-- C5 amended: the add/get and delete/get round trips hold for every state;
after any id-fresh sequence of add/delete/update calls on a fresh store, the
document table and the forward slot mapping `id_to_index` list exactly the
same ids, and the reverse mapping `index_to_id` carries exactly the same id
set.  (Re-adding an id that is already present breaks the reverse-mapping
half: the overwritten slot entry goes stale and a later delete leaves it
behind, see the counterexample.) -/
theorem vector_round_trip_and_sync (d : Nat) (ops : List VsOp)
    (hfresh : vsOpsFresh (FaissVectorStore.init d) ops) :
    (∀ (st : FaissVectorStore) (doc : VectorDocument),
        ((st.add_document doc).2).get_document doc.id = some doc)
    ∧ (∀ (st : FaissVectorStore) (i : String),
        ((st.delete_document i).2).get_document i = none)
    ∧ (runVsOps d ops).documents.map Prod.fst
        = (runVsOps d ops).id_to_index.map Prod.fst
    ∧ (∀ i : String, i ∈ (runVsOps d ops).documents.map Prod.fst
        ↔ i ∈ (runVsOps d ops).index_to_id.map Prod.snd) := by
  have hinv : (runVsOps d ops).inv :=
    foldl_vsops_inv ops (FaissVectorStore.init d) (init_inv d) hfresh
  obtain ⟨hkeys, _, _, _, _, hbij⟩ := hinv
  refine ⟨?_, ?_, hkeys, ?_⟩
  · intro st doc
    unfold FaissVectorStore.add_document FaissVectorStore.get_document
    exact dictGet_dictSet_same doc.id doc st.documents
  · intro st i
    unfold FaissVectorStore.delete_document
    by_cases hpres : (dictGet i st.documents).isSome = true
    · rw [if_pos hpres]
      unfold FaissVectorStore.get_document
      split
      · exact dictGet_dictDel_same i _
      · exact dictGet_dictDel_same i _
    · rw [if_neg hpres]
      unfold FaissVectorStore.get_document
      exact Option.not_isSome_iff_eq_none.mp hpres
  · intro i
    rw [hkeys, mem_keys_iff_exists, mem_vals_iff_exists]
    constructor
    · intro ⟨n, hn⟩
      exact ⟨n, (hbij i n).mp hn⟩
    · intro ⟨n, hn⟩
      exact ⟨n, (hbij i n).mpr hn⟩

/-- Witness: a fresh add/update/delete sequence on two distinct ids
satisfies the freshness side condition and the synchronization conclusion. -/
theorem vector_round_trip_and_sync_witness :
    vsOpsFresh (FaissVectorStore.init 2)
      [.add (mkDoc "a" []), .add (mkDoc "b" []),
       .upd "a" (mkDoc "a" [("lang", "en")]), .del "b"]
    ∧ ((runVsOps 2
        [.add (mkDoc "a" []), .add (mkDoc "b" []),
         .upd "a" (mkDoc "a" [("lang", "en")]), .del "b"]).documents.map Prod.fst
      = (runVsOps 2
        [.add (mkDoc "a" []), .add (mkDoc "b" []),
         .upd "a" (mkDoc "a" [("lang", "en")]), .del "b"]).id_to_index.map Prod.fst) := by
  refine ⟨by decide, ?_⟩
  exact (vector_round_trip_and_sync 2
    [.add (mkDoc "a" []), .add (mkDoc "b" []),
     .upd "a" (mkDoc "a" [("lang", "en")]), .del "b"] (by decide)).2.2.1

/-- C5 counterexample: adding the same id twice and deleting it leaves the
document table empty while the reverse slot mapping still carries the id —
the claimed table/index id-set equality fails after this add/add/delete
sequence. -/
theorem vector_sync_cex :
    (runVsOps 2 dupAddOps).documents = []
    ∧ (runVsOps 2 dupAddOps).index_to_id.map Prod.snd = ["a"]
    ∧ ¬ (∀ i : String, i ∈ (runVsOps 2 dupAddOps).documents.map Prod.fst
        ↔ i ∈ (runVsOps 2 dupAddOps).index_to_id.map Prod.snd) := by
  refine ⟨by decide, by decide, ?_⟩
  intro hall
  exact absurd ((hall "a").mpr (by decide)) (by decide)

theorem searchAssemble_rank_bounds (st : FaissVectorStore)
    (filterMd : Option (List (String × String))) :
    ∀ (cands : List (ℚ × Int)) (rank : Nat) (r : SearchResult),
      r ∈ searchAssemble st filterMd rank cands →
      rank ≤ r.rank ∧ r.rank < rank + cands.length := by
  intro cands
  induction cands with
  | nil =>
      intro rank r hr
      exact absurd hr (by simp [searchAssemble])
  | cons c rest ih =>
      intro rank r hr
      unfold searchAssemble at hr
      simp only [List.length_cons]
      by_cases hp : candPasses st filterMd c = true
      · rw [if_pos hp] at hr
        rcases hg1 : dictGet c.2.toNat st.index_to_id with _ | docId
        · rw [hg1] at hr
          have := ih (rank + 1) r hr
          omega
        · rw [hg1] at hr
          simp only [] at hr
          rcases hg2 : dictGet docId st.documents with _ | doc
          · rw [hg2] at hr
            have := ih (rank + 1) r hr
            omega
          · rw [hg2] at hr
            simp only [] at hr
            rcases List.mem_cons.mp hr with h | h
            · rw [h]
              simp
            · have := ih (rank + 1) r h
              omega
      · rw [if_neg hp] at hr
        have := ih (rank + 1) r hr
        omega

theorem searchAssemble_score_mem (st : FaissVectorStore)
    (filterMd : Option (List (String × String))) :
    ∀ (cands : List (ℚ × Int)) (rank : Nat) (r : SearchResult),
      r ∈ searchAssemble st filterMd rank cands →
      r.score ∈ cands.map Prod.fst := by
  intro cands
  induction cands with
  | nil =>
      intro rank r hr
      exact absurd hr (by simp [searchAssemble])
  | cons c rest ih =>
      intro rank r hr
      unfold searchAssemble at hr
      simp only [List.map_cons, List.mem_cons]
      by_cases hp : candPasses st filterMd c = true
      · rw [if_pos hp] at hr
        rcases hg1 : dictGet c.2.toNat st.index_to_id with _ | docId
        · rw [hg1] at hr
          exact Or.inr (ih (rank + 1) r hr)
        · rw [hg1] at hr
          simp only [] at hr
          rcases hg2 : dictGet docId st.documents with _ | doc
          · rw [hg2] at hr
            exact Or.inr (ih (rank + 1) r hr)
          · rw [hg2] at hr
            simp only [] at hr
            rcases List.mem_cons.mp hr with h | h
            · rw [h]
              simp
            · exact Or.inr (ih (rank + 1) r h)
      · rw [if_neg hp] at hr
        exact Or.inr (ih (rank + 1) r hr)

theorem searchAssemble_sorted_scores (st : FaissVectorStore)
    (filterMd : Option (List (String × String))) :
    ∀ (cands : List (ℚ × Int)) (rank : Nat),
      List.Pairwise (fun (a b : ℚ × Int) => b.1 ≤ a.1) cands →
      List.Pairwise (fun r s => s.score ≤ r.score)
        (searchAssemble st filterMd rank cands) := by
  intro cands
  induction cands with
  | nil =>
      intro rank _
      simp [searchAssemble]
  | cons c rest ih =>
      intro rank hsorted
      obtain ⟨hhead, htail⟩ := List.pairwise_cons.mp hsorted
      unfold searchAssemble
      by_cases hp : candPasses st filterMd c = true
      · rw [if_pos hp]
        rcases hg1 : dictGet c.2.toNat st.index_to_id with _ | docId
        · simp only []
          exact ih (rank + 1) htail
        · simp only []
          rcases hg2 : dictGet docId st.documents with _ | doc
          · simp only []
            exact ih (rank + 1) htail
          · simp only []
            apply List.pairwise_cons.mpr
            refine ⟨?_, ih (rank + 1) htail⟩
            intro s hs
            have hss := searchAssemble_score_mem st filterMd rest (rank + 1) s hs
            obtain ⟨b, hb, hbs⟩ := List.mem_map.mp hss
            rw [← hbs]
            exact hhead b hb
      · rw [if_neg hp]
        exact ih (rank + 1) htail

theorem searchAssemble_ranks_strict (st : FaissVectorStore)
    (filterMd : Option (List (String × String))) :
    ∀ (cands : List (ℚ × Int)) (rank : Nat),
      List.Pairwise (fun r s => r.rank < s.rank)
        (searchAssemble st filterMd rank cands) := by
  intro cands
  induction cands with
  | nil =>
      intro rank
      simp [searchAssemble]
  | cons c rest ih =>
      intro rank
      unfold searchAssemble
      by_cases hp : candPasses st filterMd c = true
      · rw [if_pos hp]
        rcases hg1 : dictGet c.2.toNat st.index_to_id with _ | docId
        · simp only []
          exact ih (rank + 1)
        · simp only []
          rcases hg2 : dictGet docId st.documents with _ | doc
          · simp only []
            exact ih (rank + 1)
          · simp only []
            apply List.pairwise_cons.mpr
            refine ⟨?_, ih (rank + 1)⟩
            intro s hs
            have := searchAssemble_rank_bounds st filterMd rest (rank + 1) s hs
            simp only
            omega
      · rw [if_neg hp]
        exact ih (rank + 1)

theorem candPasses_lookups (st : FaissVectorStore)
    (filterMd : Option (List (String × String))) (c : ℚ × Int)
    (hp : candPasses st filterMd c = true) :
    ∃ docId doc, dictGet c.2.toNat st.index_to_id = some docId
      ∧ dictGet docId st.documents = some doc := by
  unfold candPasses at hp
  by_cases h1 : c.2 = -1
  · rw [if_pos h1] at hp
    exact absurd hp (by simp)
  · rw [if_neg h1] at hp
    rcases hg1 : dictGet c.2.toNat st.index_to_id with _ | docId
    · rw [hg1] at hp
      exact absurd hp (by simp)
    · rw [hg1] at hp
      simp only [] at hp
      by_cases h2 : docId = ""
      · rw [if_pos h2] at hp
        exact absurd hp (by simp)
      · rw [if_neg h2] at hp
        rcases hg2 : dictGet docId st.documents with _ | doc
        · rw [hg2] at hp
          simp only [] at hp
          exact absurd hp (by simp)
        · exact ⟨docId, doc, rfl, hg2⟩

theorem searchAssemble_all_pass (st : FaissVectorStore)
    (filterMd : Option (List (String × String))) :
    ∀ (cands : List (ℚ × Int)) (rank : Nat),
      (∀ c ∈ cands, candPasses st filterMd c = true) →
      (searchAssemble st filterMd rank cands).map SearchResult.rank
        = List.range' rank cands.length := by
  intro cands
  induction cands with
  | nil =>
      intro rank _
      simp [searchAssemble]
  | cons c rest ih =>
      intro rank hall
      have hp : candPasses st filterMd c = true := hall c (List.mem_cons_self c rest)
      obtain ⟨docId, doc, hg1, hg2⟩ := candPasses_lookups st filterMd c hp
      unfold searchAssemble
      rw [if_pos hp, hg1]
      simp only []
      rw [hg2]
      simp only [List.map_cons, List.length_cons]
      rw [ih (rank + 1) (fun x hx => hall x (List.mem_cons_of_mem c hx))]
      rfl

/-- C6 amended: over every store state and every score-descending candidate
list the backend returns, the assembled results are ordered by descending
score with strictly increasing ranks bounded by the candidate count, and
the ranks are the contiguous `0..n-1` exactly when no candidate is skipped;
a candidate dropped by the metadata filter or a stale slot leaves a gap in
the ranks (see the counterexample). -/
theorem search_order_and_ranks (st : FaissVectorStore)
    (cands : List (ℚ × Int)) (filterMd : Option (List (String × String)))
    (hsorted : List.Pairwise (fun (a b : ℚ × Int) => b.1 ≤ a.1) cands) :
    List.Pairwise (fun r s => s.score ≤ r.score) (st.search cands filterMd)
    ∧ List.Pairwise (fun r s => r.rank < s.rank) (st.search cands filterMd)
    ∧ (∀ r ∈ st.search cands filterMd, r.rank < cands.length)
    ∧ (st.ntotal ≠ 0 → (∀ c ∈ cands, candPasses st filterMd c = true) →
        (st.search cands filterMd).map SearchResult.rank
          = List.range cands.length) := by
  unfold FaissVectorStore.search
  by_cases hz : st.ntotal = 0
  · rw [if_pos hz]
    refine ⟨by simp, by simp, by simp, ?_⟩
    intro hc
    exact absurd hz hc
  · rw [if_neg hz]
    refine ⟨searchAssemble_sorted_scores st filterMd cands 0 hsorted,
      searchAssemble_ranks_strict st filterMd cands 0, ?_, ?_⟩
    · intro r hr
      have := searchAssemble_rank_bounds st filterMd cands 0 r hr
      omega
    · intro _ hall
      rw [searchAssemble_all_pass st filterMd cands 0 hall,
        List.range_eq_range']

/-- Witness: the three-document store with no filter and descending
similarity scores yields contiguous ranks 0, 1, 2. -/
theorem search_order_and_ranks_witness :
    List.Pairwise (fun (a b : ℚ × Int) => b.1 ≤ a.1)
      [((1 : ℚ), (0 : Int)), (1/2, 1), (1/4, 2)]
    ∧ (filterStore.search [((1 : ℚ), (0 : Int)), (1/2, 1), (1/4, 2)] none).map
        SearchResult.rank = List.range 3 := by
  have hs : List.Pairwise (fun (a b : ℚ × Int) => b.1 ≤ a.1)
      [((1 : ℚ), (0 : Int)), (1/2, 1), (1/4, 2)] := by
    norm_num [List.pairwise_cons]
  refine ⟨hs, ?_⟩
  exact (search_order_and_ranks filterStore
    [((1 : ℚ), (0 : Int)), (1/2, 1), (1/4, 2)] none hs).2.2.2
    (by decide) (by decide)

/-- C6 counterexample: the same store searched with the language filter
skips the middle candidate, returning two results whose ranks are 0 and 2 —
the second returned result does not carry rank 1, so ranks are not
contiguous over the returned list. -/
theorem search_rank_gap_cex :
    (filterStore.search [((1 : ℚ), (0 : Int)), (1/2, 1), (1/4, 2)]
        (some [("lang", "en")])).map SearchResult.rank = [0, 2]
    ∧ ((filterStore.search [((1 : ℚ), (0 : Int)), (1/2, 1), (1/4, 2)]
        (some [("lang", "en")])).length = 2)
    ∧ ([0, 2] ≠ List.range 2) := by
  refine ⟨by decide, by decide, by decide⟩

/-! ## Lemmas about the reflection loop and synthesis -/

theorem reflectLoopAux_rounds_le (θ : ℚ) (evalStep : Nat → String → EvalOut)
    (improveStep : Nat → String → EvalOut → String) :
    ∀ (fuel round : Nat) (cur : String) (lastEval : Option EvalOut),
      (reflectLoopAux θ evalStep improveStep fuel round cur lastEval).2.1
        ≤ round + fuel := by
  intro fuel
  induction fuel with
  | zero =>
      intro round cur lastEval
      simp [reflectLoopAux]
  | succ f ih =>
      intro round cur lastEval
      unfold reflectLoopAux
      dsimp only
      split
      · dsimp only
        omega
      · have := ih (round + 1) (improveStep (round + 1) cur
          (evalStep (round + 1) cur)) (some (evalStep (round + 1) cur))
        omega

theorem reflectLoopAux_rounds_low (θ : ℚ) (evalStep : Nat → String → EvalOut)
    (improveStep : Nat → String → EvalOut → String)
    (hlow : ∀ r s, (evalStep r s).overall_score < θ) :
    ∀ (fuel round : Nat) (cur : String) (lastEval : Option EvalOut),
      (reflectLoopAux θ evalStep improveStep fuel round cur lastEval).2.1
        = round + fuel := by
  intro fuel
  induction fuel with
  | zero =>
      intro round cur lastEval
      simp [reflectLoopAux]
  | succ f ih =>
      intro round cur lastEval
      unfold reflectLoopAux
      dsimp only
      rw [if_neg (not_le.mpr (hlow (round + 1) cur))]
      rw [ih]
      omega

/-- C8: for any `max_reflection_rounds = N ≥ 1`, an evaluation always below
the threshold makes the loop run exactly `N` rounds before returning, and
an evaluation always scoring 1.0 (with a threshold at most 1) makes it stop
after exactly one round, returning the initial response unimproved. -/
theorem reflection_round_counts (N : Nat) (θ : ℚ)
    (evalStep : Nat → String → EvalOut)
    (improveStep : Nat → String → EvalOut → String) (initial : String)
    (hN : 1 ≤ N) :
    ((∀ r s, (evalStep r s).overall_score < θ) →
      (reflectionLoop N θ evalStep improveStep initial).2.1 = N)
    ∧ ((∀ r s, (evalStep r s).overall_score = 1) → θ ≤ 1 →
      (reflectionLoop N θ evalStep improveStep initial).2.1 = 1
      ∧ (reflectionLoop N θ evalStep improveStep initial).1 = initial) := by
  constructor
  · intro hlow
    unfold reflectionLoop
    rw [reflectLoopAux_rounds_low θ evalStep improveStep hlow]
    omega
  · intro hone hθ
    obtain ⟨f, rfl⟩ : ∃ f, N = f + 1 := ⟨N - 1, by omega⟩
    unfold reflectionLoop reflectLoopAux
    dsimp only
    rw [if_pos (by rw [hone (0 + 1) initial]; exact hθ)]
    exact ⟨rfl, rfl⟩

/-- Witness: with three rounds and threshold 0.8, a constant score 0 runs
all three rounds and a constant score 1 stops after one. -/
theorem reflection_round_counts_witness :
    (1 ≤ 3)
    ∧ (reflectionLoop 3 (8/10) (fun _ _ => constEval 0) (fun _ s _ => s)
        "init").2.1 = 3
    ∧ (reflectionLoop 3 (8/10) (fun _ _ => constEval 1) (fun _ s _ => s)
        "init").2.1 = 1 := by
  refine ⟨by omega, ?_, ?_⟩
  · exact (reflection_round_counts 3 (8/10) (fun _ _ => constEval 0)
      (fun _ s _ => s) "init" (by omega)).1
      (by intro r s; norm_num [constEval])
  · exact ((reflection_round_counts 3 (8/10) (fun _ _ => constEval 1)
      (fun _ s _ => s) "init" (by omega)).2
      (by intro r s; rfl) (by norm_num)).1

/-- C7 amended: a raising evaluation collaborator, or evaluator output whose
brace-delimited fragment fails JSON parsing, yields the degraded record
with overall 0.5 and a failure note; evaluator output with no
brace-delimited fragment at all instead yields the fallback record with
every score 0.7 and a cannot-parse note (not 0.5); successfully parsed
output keeps its aggregate or the mean of the five dimensions; and the
reflection loop always returns within `max_reflection_rounds` rounds. -/
theorem evaluation_degradation (parse : String → Except String EvalJson)
    (failText text jsonStr : String) (j : EvalJson) :
    evaluateResponse parse (.failure failText) = failureEval failText
    ∧ (evaluateResponse parse (.failure failText)).overall_score = 1/2
    ∧ (extractJson text = none →
        evaluateResponse parse (.output text) = defaultEval07
        ∧ (evaluateResponse parse (.output text)).overall_score = 7/10)
    ∧ (∀ parseErr : String, extractJson text = some jsonStr →
        parse jsonStr = .error parseErr →
        evaluateResponse parse (.output text) = failureEval parseErr
        ∧ (evaluateResponse parse (.output text)).overall_score = 1/2)
    ∧ (extractJson text = some jsonStr → parse jsonStr = .ok j →
        (evaluateResponse parse (.output text)).overall_score
          = j.overall_score.getD (meanOfFive j))
    ∧ (∀ (N : Nat) (θ : ℚ) (evalStep : Nat → String → EvalOut)
        (improveStep : Nat → String → EvalOut → String) (initial : String),
        (reflectionLoop N θ evalStep improveStep initial).2.1 ≤ N) := by
  refine ⟨rfl, rfl, ?_, ?_, ?_, ?_⟩
  · intro hx
    unfold evaluateResponse
    simp only []
    rw [hx]
    exact ⟨rfl, rfl⟩
  · intro parseErr hx hp
    unfold evaluateResponse
    simp only []
    rw [hx]
    simp only []
    rw [hp]
    exact ⟨rfl, rfl⟩
  · intro hx hp
    unfold evaluateResponse
    simp only []
    rw [hx]
    simp only []
    rw [hp]
  · intro N θ evalStep improveStep initial
    unfold reflectionLoop
    have := reflectLoopAux_rounds_le θ evalStep improveStep N 0 initial none
    omega

/-- Witness: concrete instances of the three degradation paths. -/
theorem evaluation_degradation_witness :
    extractJson "cannot evaluate" = none
    ∧ (evaluateResponse (fun s => .error s) (.output "cannot evaluate"))
        = defaultEval07
    ∧ extractJson "xx\x7bbad\x7dyy" = some "\x7bbad\x7d"
    ∧ (evaluateResponse (fun s => .error s) (.output "xx\x7bbad\x7dyy"))
        = failureEval "\x7bbad\x7d"
    ∧ (evaluateResponse (fun _ => .error "e") (.failure "boom"))
        = failureEval "boom" := by
  refine ⟨rfl, ?_, rfl, ?_, ?_⟩
  · exact ((evaluation_degradation (fun s => .error s) "f" "cannot evaluate"
      "u" ⟨none, none, none, none, none, none, []⟩).2.2.1 rfl).1
  · exact ((evaluation_degradation (fun s => .error s) "f" "xx\x7bbad\x7dyy"
      "\x7bbad\x7d" ⟨none, none, none, none, none, none, []⟩).2.2.2.1
      "\x7bbad\x7d" rfl rfl).1
  · exact (evaluation_degradation (fun _ => .error "e") "boom" "t" "u"
      ⟨none, none, none, none, none, none, []⟩).1

/-- C7 counterexample: evaluator output with no brace-delimited fragment is
unparseable, yet the code substitutes overall 0.7, not the claimed 0.5. -/
theorem evaluation_degradation_cex :
    extractJson "cannot evaluate" = none
    ∧ (evaluateResponse (fun s => .error s)
        (.output "cannot evaluate")).overall_score = 7/10
    ∧ (7 / 10 : ℚ) ≠ 1 / 2 := by
  refine ⟨rfl, rfl, by norm_num⟩

theorem pickLongest_unique_max :
    ∀ (rs : List (String × Message)) (acc : Option Message) (m : Message),
      (m ∈ rs.map Prod.snd ∨ acc = some m) →
      (∀ x ∈ rs.map Prod.snd,
        x = m ∨ x.get_text_content.length < m.get_text_content.length) →
      (∀ b, acc = some b →
        b = m ∨ b.get_text_content.length < m.get_text_content.length) →
      pickLongest acc rs = some m := by
  intro rs
  induction rs with
  | nil =>
      intro acc m hm _ _
      rcases hm with h | h
      · exact absurd h (by simp)
      · rw [h]
        rfl
  | cons p rest ih =>
      obtain ⟨k, x⟩ := p
      intro acc m hm hlt hacc
      have hmap : List.map Prod.snd ((k, x) :: rest)
          = x :: List.map Prod.snd rest := rfl
      rw [hmap] at hm hlt
      have hhead := hlt x (List.mem_cons_self _ _)
      have hltr : ∀ y ∈ List.map Prod.snd rest,
          y = m ∨ y.get_text_content.length < m.get_text_content.length :=
        fun y hy => hlt y (List.mem_cons_of_mem _ hy)
      cases acc with
      | none =>
          have hstep : pickLongest none ((k, x) :: rest)
              = pickLongest (some x) rest := rfl
          rw [hstep]
          apply ih (some x) m ?_ hltr ?_
          · rcases hhead with h | h
            · exact Or.inr (by rw [h])
            · rcases hm with hmem | habs
              · rcases List.mem_cons.mp hmem with h2 | h2
                · exfalso
                  rw [← h2] at h
                  omega
                · exact Or.inl h2
              · exact absurd habs (by simp)
          · intro c hc
            rw [← Option.some.inj hc]
            exact hhead
      | some b =>
          have hb := hacc b rfl
          have hstep : pickLongest (some b) ((k, x) :: rest)
              = if x.get_text_content.length > b.get_text_content.length
                then pickLongest (some x) rest
                else pickLongest (some b) rest := rfl
          rw [hstep]
          by_cases hcmp : x.get_text_content.length > b.get_text_content.length
          · rw [if_pos hcmp]
            apply ih (some x) m ?_ hltr ?_
            · rcases hhead with h | h
              · exact Or.inr (by rw [h])
              · rcases hm with hmem | habs
                · rcases List.mem_cons.mp hmem with h2 | h2
                  · exfalso
                    rw [← h2] at h
                    omega
                  · exact Or.inl h2
                · exfalso
                  rw [Option.some.inj habs] at hcmp
                  omega
            · intro c hc
              rw [← Option.some.inj hc]
              exact hhead
          · rw [if_neg hcmp]
            apply ih (some b) m ?_ hltr hacc
            rcases hb with h | h
            · exact Or.inr (by rw [h])
            · rcases hm with hmem | habs
              · rcases List.mem_cons.mp hmem with h2 | h2
                · exfalso
                  rw [← h2] at hcmp
                  omega
                · exact Or.inl h2
              · exact Or.inr habs

/-- C9 amended: synthesis picks the first-encountered response of maximal
text length in insertion order; whenever one response is strictly longer
than every other, the selection is independent of the insertion order of
the agent-response map, but two distinct responses tying at maximal length
make the result depend on insertion order (see the counterexample). -/
theorem synthesis_longest_commutes (rs₁ rs₂ : List (String × Message))
    (m : Message) (hperm : rs₁.Perm rs₂) (hmem : m ∈ rs₁.map Prod.snd)
    (hmax : ∀ x ∈ rs₁.map Prod.snd,
      x = m ∨ x.get_text_content.length < m.get_text_content.length) :
    synthesizeResponses rs₁
        = .result m.get_text_content m.sender_id rs₁.length
    ∧ synthesizeResponses rs₁ = synthesizeResponses rs₂ := by
  have h1 : pickLongest none rs₁ = some m :=
    pickLongest_unique_max rs₁ none m (Or.inl hmem) hmax
      (fun b hb => absurd hb (by simp))
  have h2 : pickLongest none rs₂ = some m :=
    pickLongest_unique_max rs₂ none m
      (Or.inl ((hperm.map Prod.snd).mem_iff.mp hmem))
      (fun x hx => hmax x ((hperm.map Prod.snd).mem_iff.mpr hx))
      (fun b hb => absurd hb (by simp))
  unfold synthesizeResponses
  rw [h1, h2, hperm.length_eq]
  exact ⟨rfl, rfl⟩

/-- Witness: with a unique longest response, both insertion orders
synthesize the same result. -/
theorem synthesis_longest_commutes_witness :
    ([("a", mkResp "A" "xx"), ("b", mkResp "B" "yyy")] :
        List (String × Message)).Perm
      [("b", mkResp "B" "yyy"), ("a", mkResp "A" "xx")]
    ∧ synthesizeResponses [("a", mkResp "A" "xx"), ("b", mkResp "B" "yyy")]
        = .result "yyy" "B" 2
    ∧ synthesizeResponses [("a", mkResp "A" "xx"), ("b", mkResp "B" "yyy")]
        = synthesizeResponses [("b", mkResp "B" "yyy"), ("a", mkResp "A" "xx")] := by
  refine ⟨List.Perm.swap _ _ _, ?_, ?_⟩
  · exact (synthesis_longest_commutes
      [("a", mkResp "A" "xx"), ("b", mkResp "B" "yyy")]
      [("b", mkResp "B" "yyy"), ("a", mkResp "A" "xx")]
      (mkResp "B" "yyy") (List.Perm.swap _ _ _) (by decide) (by decide)).1
  · exact (synthesis_longest_commutes
      [("a", mkResp "A" "xx"), ("b", mkResp "B" "yyy")]
      [("b", mkResp "B" "yyy"), ("a", mkResp "A" "xx")]
      (mkResp "B" "yyy") (List.Perm.swap _ _ _) (by decide) (by decide)).2

/-- C9 counterexample: two equal-length distinct responses: the same
agent-response map inserted in the two orders synthesizes different main
responses, so the selection is not commutative over completion order at
equal lengths. -/
theorem synthesis_order_cex :
    synthesizeResponses [("a", mkResp "A" "xx"), ("b", mkResp "B" "yy")]
        = .result "xx" "A" 2
    ∧ synthesizeResponses [("b", mkResp "B" "yy"), ("a", mkResp "A" "xx")]
        = .result "yy" "B" 2
    ∧ ([("a", mkResp "A" "xx"), ("b", mkResp "B" "yy")] :
        List (String × Message)).Perm
      [("b", mkResp "B" "yy"), ("a", mkResp "A" "xx")]
    ∧ synthesizeResponses [("a", mkResp "A" "xx"), ("b", mkResp "B" "yy")]
        ≠ synthesizeResponses [("b", mkResp "B" "yy"), ("a", mkResp "A" "xx")] := by
  refine ⟨by decide, by decide, List.Perm.swap _ _ _, by decide⟩

end MultiAgent
